import Mathlib

/-!
Verification of the Phantom scheduler core.

Shallow embedding of `scheduler/services.py` (class `SchedulingEngine`),
`scheduler/models.py` (`Category`, `Event`) and `ai_agent/parsers.py`
(`TemporalExpressionParser`).

Modelling conventions:
* Python `datetime` instants are modelled as `Int` seconds; `timedelta(minutes=m)`
  is `60 * m` seconds, `timedelta(days=d)` is `86400 * d` seconds.  Sub-second
  (microsecond) resolution is not needed by any claim.
* Python's stable `sorted(..., key=...)` is modelled by `List.insertionSort`
  with the corresponding key order (insertion sort is a stable sort, so it is
  extensionally equal to Python's Timsort for a total preorder).
* `Event` objects are mutated in place by the Python code; here they are values
  carrying an `id`, and "the same event" means "the same `id`".
-/

namespace Phantom

/-- `scheduler/models.py` `Category`: name and integer priority (higher wins). -/
structure Category where
  name : String
  priority_level : Int
deriving DecidableEq, Repr

/-- `scheduler/models.py` `Event`: the fields read or written by the
scheduling engine (`start_time`, `end_time`, `category`, `is_flexible`),
plus the database identity `id`. -/
structure Event where
  id : Nat
  title : String
  category : Category
  start_time : Int
  end_time : Int
  is_flexible : Bool
deriving DecidableEq, Repr

/-- Key for `sorted(events, key=lambda e: e.start_time)`. -/
def leStart (a b : Event) : Prop := a.start_time ≤ b.start_time

instance : DecidableRel leStart := fun a b => by unfold leStart; infer_instance

instance : IsTotal Event leStart := ⟨fun a b => by unfold leStart; omega⟩

instance : IsTrans Event leStart := ⟨fun a b c => by unfold leStart; omega⟩

/-- Key for `sorted(events, key=lambda e: (-e.category.priority_level, e.start_time))`:
lexicographic comparison of the Python tuple key. -/
def leResolve (a b : Event) : Prop :=
  -a.category.priority_level < -b.category.priority_level ∨
    (-a.category.priority_level = -b.category.priority_level ∧ a.start_time ≤ b.start_time)

instance : DecidableRel leResolve := fun a b => by unfold leResolve; infer_instance

instance : IsTotal Event leResolve := ⟨fun a b => by unfold leResolve; omega⟩

instance : IsTrans Event leResolve := ⟨fun a b c => by unfold leResolve; omega⟩

/-- `SchedulingEngine.events_overlap`:
`event1.start_time < event2.end_time and event2.start_time < event1.end_time`. -/
def events_overlap (event1 event2 : Event) : Bool :=
  decide (event1.start_time < event2.end_time) && decide (event2.start_time < event1.end_time)

theorem events_overlap_iff (e1 e2 : Event) :
    events_overlap e1 e2 = true ↔
      (e1.start_time < e2.end_time ∧ e2.start_time < e1.end_time) := by
  simp [events_overlap]

theorem events_overlap_comm (e1 e2 : Event) :
    events_overlap e1 e2 = events_overlap e2 e1 := by
  simp only [events_overlap]
  by_cases h1 : e1.start_time < e2.end_time <;>
    by_cases h2 : e2.start_time < e1.end_time <;> simp [h1, h2]

/-- `SchedulingEngine.get_event_duration`: `event.end_time - event.start_time`. -/
def get_event_duration (event : Event) : Int := event.end_time - event.start_time

/-- Inner loop of `SchedulingEngine.detect_conflicts` for a fixed `event_a`,
scanning the later-starting events: `break` when
`event_b.start_time >= event_a.end_time`, otherwise append the pair when the
half-open overlap test holds. -/
def innerScan (event_a : Event) : List Event → List (Event × Event)
  | [] => []
  | event_b :: rest =>
      if event_a.end_time ≤ event_b.start_time then []
      else if event_a.start_time < event_b.end_time ∧ event_b.start_time < event_a.end_time then
        (event_a, event_b) :: innerScan event_a rest
      else innerScan event_a rest

/-- Outer loop of `detect_conflicts` over the sorted list. -/
def detectAux : List Event → List (Event × Event)
  | [] => []
  | a :: rest => innerScan a rest ++ detectAux rest

/-- `SchedulingEngine.detect_conflicts`: sort by start time, then the double
loop with early exit. -/
def detect_conflicts (events : List Event) : List (Event × Event) :=
  detectAux (List.insertionSort leStart events)

/-- The walk in `SchedulingEngine.find_free_slots` over the (filtered, sorted)
busy events: emit the gap before each event when it is long enough, and
advance the cursor to `max(current_time, event.end_time)`.  Returns the
emitted slots and the final cursor. -/
def gapsBefore (duration_delta : Int) (current_time : Int) :
    List Event → List (Int × Int) × Int
  | [] => ([], current_time)
  | e :: rest =>
      let emitted :=
        if current_time < e.start_time ∧ e.start_time - current_time ≥ duration_delta then
          [(current_time, e.start_time)]
        else []
      let current' := if e.end_time > current_time then e.end_time else current_time
      let r := gapsBefore duration_delta current' rest
      (emitted ++ r.1, r.2)

/-- `SchedulingEngine.find_free_slots` (the branch where `existing_events` is
provided by the caller, which is how `resolve_conflicts` uses it): filter the
events intersecting the window, sort by start time, walk the gaps, and emit
the trailing gap to `end_date` when long enough. -/
def find_free_slots (start_date end_date : Int) (duration_minutes : Int)
    (existing_events : List Event) : List (Int × Int) :=
  let evs := List.insertionSort leStart
    (existing_events.filter
      (fun e => decide (e.start_time < end_date) && decide (e.end_time > start_date)))
  let duration_delta := 60 * duration_minutes
  let r := gapsBefore duration_delta start_date evs
  if r.2 < end_date ∧ end_date - r.2 ≥ duration_delta then r.1 ++ [(r.2, end_date)] else r.1

/-- First pass of `resolve_conflicts`: walk the sorted events keeping
`finalized_events` (second component: `events_to_reschedule`), deferring any
event that overlaps an already-finalized one. -/
def splitPass (finalized : List Event) : List Event → List Event × List Event
  | [] => (finalized, [])
  | e :: rest =>
      if finalized.any (fun f => events_overlap e f) then
        let r := splitPass finalized rest
        (r.1, e :: r.2)
      else
        splitPass (finalized ++ [e]) rest

/-- Second pass of `resolve_conflicts`: each deferred event is moved to the
first free slot of its (minute-truncated) duration searched 30 days forward
from its original start, with the finalized set as the busy list; if no slot
exists it is finalized unchanged.  The boolean records whether every deferred
event found a slot (`free_slots` nonempty at every step). -/
def rescheduleAll (finalized : List Event) : List Event → List Event × Bool
  | [] => (finalized, true)
  | e :: rest =>
      let duration := get_event_duration e
      let duration_minutes := duration.tdiv 60
      let free_slots :=
        find_free_slots e.start_time (e.start_time + 86400 * 30) duration_minutes finalized
      match free_slots with
      | (new_start, _) :: _ =>
          rescheduleAll
            (finalized ++ [{ e with start_time := new_start, end_time := new_start + duration }])
            rest
      | [] =>
          let r := rescheduleAll (finalized ++ [e]) rest
          (r.1, false)

/-- `SchedulingEngine.resolve_conflicts`, instrumented with a boolean that is
`true` exactly when every deferred event's 30-day slot search returned at
least one slot. -/
def resolveCore (events : List Event) : List Event × Bool :=
  match events with
  | [] => ([], true)
  | _ :: _ =>
      let sorted_events := List.insertionSort leResolve events
      let r := splitPass [] sorted_events
      rescheduleAll r.1 r.2

/-- `SchedulingEngine.resolve_conflicts`. -/
def resolve_conflicts (events : List Event) : List Event := (resolveCore events).1

/-- `true` iff no deferred event exhausted the 30-day search horizon during
`resolve_conflicts events`. -/
def resolve_all_slots_found (events : List Event) : Bool := (resolveCore events).2

/-! ### Structural lemmas about `resolve_conflicts` -/

/-- The two passes of the first loop partition the sorted list:
finalized plus deferred events are a permutation of accumulator plus input. -/
theorem splitPass_perm : ∀ (l acc : List Event),
    List.Perm ((splitPass acc l).1 ++ (splitPass acc l).2) (acc ++ l)
  | [], acc => by simp [splitPass]
  | e :: rest, acc => by
      by_cases h : acc.any (fun f => events_overlap e f) = true
      · have ih := splitPass_perm rest acc
        simp only [splitPass, h, if_pos]
        exact List.perm_middle.trans ((ih.cons e).trans List.perm_middle.symm)
      · have ih := splitPass_perm rest (acc ++ [e])
        simp only [splitPass, h, if_neg, Bool.false_eq_true, not_false_iff]
        simpa [List.append_assoc] using ih

/-- `x moveOf e`: the rescheduling pass either keeps an event unchanged or
shifts it as a whole (new end = new start + original duration). -/
def moveOf (e x : Event) : Prop :=
  x = e ∨ ∃ ns : Int,
    x = { e with start_time := ns, end_time := ns + (e.end_time - e.start_time) }

theorem moveOf_refl (e : Event) : moveOf e e := Or.inl rfl

theorem moveOf_id {e x : Event} (h : moveOf e x) : x.id = e.id := by
  rcases h with rfl | ⟨ns, rfl⟩ <;> rfl

theorem moveOf_title {e x : Event} (h : moveOf e x) : x.title = e.title := by
  rcases h with rfl | ⟨ns, rfl⟩ <;> rfl

theorem moveOf_category {e x : Event} (h : moveOf e x) : x.category = e.category := by
  rcases h with rfl | ⟨ns, rfl⟩ <;> rfl

theorem moveOf_flexible {e x : Event} (h : moveOf e x) :
    x.is_flexible = e.is_flexible := by
  rcases h with rfl | ⟨ns, rfl⟩ <;> rfl

theorem moveOf_duration {e x : Event} (h : moveOf e x) :
    x.end_time - x.start_time = e.end_time - e.start_time := by
  rcases h with rfl | ⟨ns, rfl⟩
  · rfl
  · simp

/-- Shape of the rescheduling pass: it appends, in order, one (possibly
shifted) copy of each deferred event to the finalized list. -/
theorem rescheduleAll_shape : ∀ (res fin : List Event),
    ∃ res', (rescheduleAll fin res).1 = fin ++ res' ∧ List.Forall₂ moveOf res res'
  | [], fin => ⟨[], by simp [rescheduleAll], List.Forall₂.nil⟩
  | e :: rest, fin => by
      rcases hfs : find_free_slots e.start_time (e.start_time + 86400 * 30)
          ((get_event_duration e).tdiv 60) fin with _ | ⟨⟨new_start, slot_end⟩, more⟩
      · obtain ⟨res', h1, h2⟩ := rescheduleAll_shape rest (fin ++ [e])
        refine ⟨e :: res', ?_, List.Forall₂.cons (moveOf_refl e) h2⟩
        simp only [rescheduleAll, hfs]
        simpa [List.append_assoc] using h1
      · obtain ⟨res', h1, h2⟩ := rescheduleAll_shape rest
          (fin ++ [{ e with start_time := new_start,
                            end_time := new_start + get_event_duration e }])
        refine ⟨_ :: res', ?_, List.Forall₂.cons (Or.inr ⟨new_start, rfl⟩) h2⟩
        simp only [rescheduleAll, hfs]
        simpa [List.append_assoc] using h1

theorem forall₂_map_id {res res' : List Event} (h : List.Forall₂ moveOf res res') :
    res'.map Event.id = res.map Event.id := by
  induction h with
  | nil => rfl
  | cons h _ ih => simp [moveOf_id h, ih]

theorem forall₂_mem {x : Event} : ∀ {res res' : List Event},
    List.Forall₂ moveOf res res' → x ∈ res' → ∃ e ∈ res, moveOf e x
  | _, _, List.Forall₂.nil, hx => absurd hx (List.not_mem_nil _)
  | _, _, List.Forall₂.cons h t, hx => by
      rcases List.mem_cons.mp hx with rfl | hx'
      · exact ⟨_, List.mem_cons_self _ _, h⟩
      · obtain ⟨e, he, hm⟩ := forall₂_mem t hx'
        exact ⟨e, List.mem_cons_of_mem _ he, hm⟩

/-- The output of `resolve_conflicts` is `finalized ++ moved deferred`, with
the finalized-plus-deferred split a permutation of the input. -/
theorem resolve_conflicts_shape (l : List Event) :
    ∃ fin res res', resolve_conflicts l = fin ++ res' ∧
      List.Forall₂ moveOf res res' ∧ List.Perm (fin ++ res) l := by
  cases l with
  | nil => exact ⟨[], [], [], rfl, List.Forall₂.nil, List.Perm.refl _⟩
  | cons a l' =>
      obtain ⟨res', h1, h2⟩ := rescheduleAll_shape
        (splitPass [] (List.insertionSort leResolve (a :: l'))).2
        (splitPass [] (List.insertionSort leResolve (a :: l'))).1
      refine ⟨_, _, res', h1, h2, ?_⟩
      exact (splitPass_perm (List.insertionSort leResolve (a :: l')) []).trans
        (List.perm_insertionSort leResolve (a :: l'))

/-- C5: `resolve_conflicts` preserves the number of events and the multiset of
event identities: nothing is created, dropped or duplicated. -/
theorem resolve_conflicts_count_and_ids (l : List Event) :
    (resolve_conflicts l).length = l.length ∧
      List.Perm ((resolve_conflicts l).map Event.id) (l.map Event.id) := by
  obtain ⟨fin, res, res', h1, h2, h3⟩ := resolve_conflicts_shape l
  have hmap : (resolve_conflicts l).map Event.id = (fin ++ res).map Event.id := by
    rw [h1]; simp [forall₂_map_id h2]
  have hperm : List.Perm ((resolve_conflicts l).map Event.id) (l.map Event.id) := by
    rw [hmap]; exact h3.map Event.id
  refine ⟨?_, hperm⟩
  have := hperm.length_eq
  simpa using this

/-- C6: every event in the output of `resolve_conflicts` corresponds to an
input event from which only `start_time` and `end_time` may differ: the
identity, title, category and flexibility flag are unchanged, and the
duration is preserved (new end = new start + original duration), so
rescheduling only shifts the event as a whole. -/
theorem resolve_conflicts_preserves_shape (l : List Event) (x : Event)
    (hx : x ∈ resolve_conflicts l) :
    ∃ e ∈ l, x.id = e.id ∧ x.title = e.title ∧ x.category = e.category ∧
      x.is_flexible = e.is_flexible ∧
      x.end_time - x.start_time = e.end_time - e.start_time := by
  obtain ⟨fin, res, res', h1, h2, h3⟩ := resolve_conflicts_shape l
  rw [h1] at hx
  rcases List.mem_append.mp hx with hfin | hres
  · exact ⟨x, h3.mem_iff.mp (List.mem_append.mpr (Or.inl hfin)), rfl, rfl, rfl, rfl, rfl⟩
  · obtain ⟨e, he, hm⟩ := forall₂_mem h2 hres
    exact ⟨e, h3.mem_iff.mp (List.mem_append.mpr (Or.inr he)), moveOf_id hm,
      moveOf_title hm, moveOf_category hm, moveOf_flexible hm, moveOf_duration hm⟩

theorem resolve_conflicts_preserves_shape_witness :
    ∃ e ∈ [Event.mk 1 "a" ⟨"Exam", 5⟩ 0 60 true],
      (Event.mk 1 "a" ⟨"Exam", 5⟩ 0 60 true).id = e.id ∧
      (Event.mk 1 "a" ⟨"Exam", 5⟩ 0 60 true).title = e.title ∧
      (Event.mk 1 "a" ⟨"Exam", 5⟩ 0 60 true).category = e.category ∧
      (Event.mk 1 "a" ⟨"Exam", 5⟩ 0 60 true).is_flexible = e.is_flexible ∧
      (Event.mk 1 "a" ⟨"Exam", 5⟩ 0 60 true).end_time -
          (Event.mk 1 "a" ⟨"Exam", 5⟩ 0 60 true).start_time = e.end_time - e.start_time :=
  resolve_conflicts_preserves_shape [Event.mk 1 "a" ⟨"Exam", 5⟩ 0 60 true]
    (Event.mk 1 "a" ⟨"Exam", 5⟩ 0 60 true) (by decide)

/-! ### `resolve_conflicts` on a conflict-free schedule (C10) -/

theorem overlap_false_symm :
    Symmetric (fun a b : Event => events_overlap a b = false) := by
  intro x y hxy
  rw [events_overlap_comm]
  exact hxy

theorem splitPass_of_no_conflict : ∀ (l acc : List Event),
    (acc ++ l).Pairwise (fun a b => events_overlap a b = false) →
    splitPass acc l = (acc ++ l, [])
  | [], acc, _ => by simp [splitPass]
  | e :: rest, acc, h => by
      have hforall : ∀ f ∈ acc, events_overlap e f = false := by
        intro f hf
        have := ((List.pairwise_append.mp h).2.2) f hf e (List.mem_cons_self _ _)
        rw [events_overlap_comm]; exact this
      have hany : acc.any (fun f => events_overlap e f) = false := by
        simp only [List.any_eq_false]
        intro f hf
        simp [hforall f hf]
      have hrec := splitPass_of_no_conflict rest (acc ++ [e])
        (by simpa [List.append_assoc] using h)
      simp only [splitPass, hany, Bool.false_eq_true, if_neg, not_false_iff, hrec]
      simp [List.append_assoc]

/-- C10: on an input that is already pairwise non-overlapping,
`resolve_conflicts` is a no-op up to ordering (every event keeps its times),
and re-running it on its own output again changes nothing. -/
theorem resolve_conflicts_noop (l : List Event)
    (h : l.Pairwise (fun a b => events_overlap a b = false)) :
    List.Perm (resolve_conflicts l) l ∧
      List.Perm (resolve_conflicts (resolve_conflicts l)) (resolve_conflicts l) := by
  have key : ∀ m : List Event, m.Pairwise (fun a b => events_overlap a b = false) →
      List.Perm (resolve_conflicts m) m := by
    intro m hm
    cases m with
    | nil => simp [resolve_conflicts, resolveCore]
    | cons a m' =>
        have hperm := List.perm_insertionSort leResolve (a :: m')
        have hsorted : (List.insertionSort leResolve (a :: m')).Pairwise
            (fun a b => events_overlap a b = false) :=
          (hperm.pairwise_iff (fun hxy => overlap_false_symm hxy)).mpr hm
        have hsplit := splitPass_of_no_conflict (List.insertionSort leResolve (a :: m')) []
          (by simpa using hsorted)
        simp only [resolve_conflicts, resolveCore, hsplit]
        simpa [rescheduleAll] using hperm
  have h1 := key l h
  refine ⟨h1, key _ ?_⟩
  exact (h1.pairwise_iff (fun hxy => overlap_false_symm hxy)).mpr h

theorem resolve_conflicts_noop_witness :
    ([Event.mk 1 "a" ⟨"Exam", 5⟩ 0 60 true,
      Event.mk 2 "b" ⟨"Gym", 3⟩ 60 120 true].Pairwise
        (fun a b => events_overlap a b = false)) ∧
    (List.Perm (resolve_conflicts [Event.mk 1 "a" ⟨"Exam", 5⟩ 0 60 true,
        Event.mk 2 "b" ⟨"Gym", 3⟩ 60 120 true])
      [Event.mk 1 "a" ⟨"Exam", 5⟩ 0 60 true, Event.mk 2 "b" ⟨"Gym", 3⟩ 60 120 true] ∧
     List.Perm
       (resolve_conflicts (resolve_conflicts [Event.mk 1 "a" ⟨"Exam", 5⟩ 0 60 true,
          Event.mk 2 "b" ⟨"Gym", 3⟩ 60 120 true]))
       (resolve_conflicts [Event.mk 1 "a" ⟨"Exam", 5⟩ 0 60 true,
          Event.mk 2 "b" ⟨"Gym", 3⟩ 60 120 true])) :=
  ⟨by decide, resolve_conflicts_noop
    [Event.mk 1 "a" ⟨"Exam", 5⟩ 0 60 true, Event.mk 2 "b" ⟨"Gym", 3⟩ 60 120 true]
    (by decide)⟩

/-! ### Specification of `find_free_slots` -/

/-- The cursor of the gap walk only moves forward, past the end of every
processed event. -/
theorem gapsBefore_final (dd : Int) : ∀ (l : List Event) (c : Int),
    c ≤ (gapsBefore dd c l).2 ∧ ∀ e ∈ l, e.end_time ≤ (gapsBefore dd c l).2
  | [], c => by simp [gapsBefore]
  | e :: rest, c => by
      simp only [gapsBefore]
      have hcur : c ≤ (if e.end_time > c then e.end_time else c) ∧
          e.end_time ≤ (if e.end_time > c then e.end_time else c) := by
        by_cases h : e.end_time > c <;> simp [h] <;> omega
      obtain ⟨ih1, ih2⟩ := gapsBefore_final dd rest (if e.end_time > c then e.end_time else c)
      refine ⟨le_trans hcur.1 ih1, ?_⟩
      intro f hf
      rcases List.mem_cons.mp hf with rfl | hf'
      · exact le_trans hcur.2 ih1
      · exact ih2 f hf'

/-- Every slot emitted by the gap walk starts at or after the initial cursor,
is at least `duration_delta` long, ends at the start of one of the busy
events, and overlaps none of the busy events. -/
theorem gapsBefore_slots (dd : Int) : ∀ (l : List Event) (c : Int),
    l.Pairwise leStart →
    ∀ p ∈ (gapsBefore dd c l).1,
      c ≤ p.1 ∧ p.2 - p.1 ≥ dd ∧ p.1 < p.2 ∧
      (∃ e ∈ l, p.2 = e.start_time) ∧
      (∀ e ∈ l, e.end_time ≤ p.1 ∨ p.2 ≤ e.start_time)
  | [], c, _, p, hp => by simp [gapsBefore] at hp
  | e :: rest, c, hsort, p, hp => by
      obtain ⟨hhead, htail⟩ := List.pairwise_cons.mp hsort
      simp only [gapsBefore, List.mem_append] at hp
      rcases hp with hem | hrec
      · have hc : c < e.start_time ∧ e.start_time - c ≥ dd := by
          by_cases h : c < e.start_time ∧ e.start_time - c ≥ dd
          · exact h
          · simp [h] at hem
        have hpv : p = (c, e.start_time) := by
          by_cases h : c < e.start_time ∧ e.start_time - c ≥ dd
          · simp [h] at hem; exact hem
          · simp [h] at hem
        subst hpv
        refine ⟨le_refl _, hc.2, hc.1, ⟨e, List.mem_cons_self _ _, rfl⟩, ?_⟩
        intro f hf
        rcases List.mem_cons.mp hf with rfl | hf'
        · exact Or.inr (le_refl _)
        · exact Or.inr (hhead f hf')
      · have ih := gapsBefore_slots dd rest (if e.end_time > c then e.end_time else c)
          htail p hrec
        have hcur : c ≤ (if e.end_time > c then e.end_time else c) ∧
            e.end_time ≤ (if e.end_time > c then e.end_time else c) := by
          by_cases h : e.end_time > c <;> simp [h] <;> omega
        obtain ⟨ih1, ih2, ih3, ⟨f, hf, hf2⟩, ih5⟩ := ih
        refine ⟨le_trans hcur.1 ih1, ih2, ih3,
          ⟨f, List.mem_cons_of_mem _ hf, hf2⟩, ?_⟩
        intro g hg
        rcases List.mem_cons.mp hg with rfl | hg'
        · exact Or.inl (le_trans hcur.2 ih1)
        · exact ih5 g hg'

/-- The gap walk emits slots in chronological order (each slot ends before the
next begins), and every slot ends no later than the final cursor.  Needs the
data-model invariant that busy events have `start_time ≤ end_time`. -/
theorem gapsBefore_chain (dd : Int) : ∀ (l : List Event) (c : Int),
    l.Pairwise leStart → (∀ e ∈ l, e.start_time ≤ e.end_time) →
    (gapsBefore dd c l).1.Pairwise (fun p q : Int × Int => p.2 ≤ q.1) ∧
    ∀ p ∈ (gapsBefore dd c l).1, p.2 ≤ (gapsBefore dd c l).2
  | [], c, _, _ => by simp [gapsBefore]
  | e :: rest, c, hsort, hval => by
      obtain ⟨hhead, htail⟩ := List.pairwise_cons.mp hsort
      have hvale : e.start_time ≤ e.end_time := hval e (List.mem_cons_self _ _)
      have hvalrest : ∀ f ∈ rest, f.start_time ≤ f.end_time :=
        fun f hf => hval f (List.mem_cons_of_mem _ hf)
      obtain ⟨ihchain, ihend⟩ :=
        gapsBefore_chain dd rest (if e.end_time > c then e.end_time else c) htail hvalrest
      have hcur : c ≤ (if e.end_time > c then e.end_time else c) ∧
          e.end_time ≤ (if e.end_time > c then e.end_time else c) := by
        by_cases h : e.end_time > c <;> simp [h] <;> omega
      have hfin := gapsBefore_final dd rest (if e.end_time > c then e.end_time else c)
      simp only [gapsBefore]
      constructor
      · rw [List.pairwise_append]
        refine ⟨?_, ihchain, ?_⟩
        · by_cases h : c < e.start_time ∧ e.start_time - c ≥ dd <;> simp [h]
        · intro p hp q hq
          have hpv : p = (c, e.start_time) := by
            by_cases h : c < e.start_time ∧ e.start_time - c ≥ dd
            · simp [h] at hp; exact hp
            · simp [h] at hp
          subst hpv
          have hq1 := (gapsBefore_slots dd rest
            (if e.end_time > c then e.end_time else c) htail q hq).1
          exact le_trans (le_trans hvale hcur.2) hq1
      · intro p hp
        rcases List.mem_append.mp hp with hem | hrec
        · have hpv : p = (c, e.start_time) := by
            by_cases h : c < e.start_time ∧ e.start_time - c ≥ dd
            · simp [h] at hem; exact hem
            · simp [h] at hem
          subst hpv
          exact le_trans (le_trans hvale hcur.2) hfin.1
        · exact ihend p hrec

/-- C4 part 1: every slot returned by `find_free_slots` lies inside the search
window, has length at least the requested duration (in minutes), and overlaps
no input busy event under the half-open rule. -/
theorem find_free_slots_spec (sd ed dm : Int) (evs : List Event) :
    ∀ p ∈ find_free_slots sd ed dm evs,
      p.2 - p.1 ≥ 60 * dm ∧ sd ≤ p.1 ∧ p.2 ≤ ed ∧
      ∀ ev ∈ evs, ¬ (p.1 < ev.end_time ∧ ev.start_time < p.2) := by
  intro p hp
  set filtered := evs.filter
    (fun e => decide (e.start_time < ed) && decide (e.end_time > sd)) with hfiltered
  set sortedl := List.insertionSort leStart filtered with hsortedl
  have hsort : sortedl.Pairwise leStart := List.sorted_insertionSort leStart filtered
  have hmemsort : ∀ e, e ∈ sortedl ↔ e ∈ filtered :=
    fun e => (List.perm_insertionSort leStart filtered).mem_iff
  have hfiltprop : ∀ e ∈ sortedl, e.start_time < ed ∧ e.end_time > sd := by
    intro e he
    have := (hmemsort e).mp he
    have := List.of_mem_filter this
    simpa using this
  simp only [find_free_slots, ← hfiltered, ← hsortedl] at hp
  have hmain : (sd ≤ p.1 ∧ p.2 - p.1 ≥ 60 * dm ∧ p.2 ≤ ed ∧
      (∀ e ∈ sortedl, e.end_time ≤ p.1 ∨ p.2 ≤ e.start_time)) := by
    by_cases hcond : (gapsBefore (60 * dm) sd sortedl).2 < ed ∧
        ed - (gapsBefore (60 * dm) sd sortedl).2 ≥ 60 * dm
    · rw [if_pos hcond, List.mem_append] at hp
      rcases hp with hwalk | htrail
      · obtain ⟨h1, h2, _, ⟨f, hf, hf2⟩, h5⟩ := gapsBefore_slots (60 * dm) sortedl sd hsort p hwalk
        refine ⟨h1, h2, ?_, h5⟩
        rw [hf2]
        exact le_of_lt (hfiltprop f hf).1
      · have hpv : p = ((gapsBefore (60 * dm) sd sortedl).2, ed) := by
          simpa using htrail
        subst hpv
        refine ⟨(gapsBefore_final (60 * dm) sortedl sd).1, by omega, le_refl _, ?_⟩
        intro e he
        exact Or.inl ((gapsBefore_final (60 * dm) sortedl sd).2 e he)
    · rw [if_neg hcond] at hp
      obtain ⟨h1, h2, _, ⟨f, hf, hf2⟩, h5⟩ := gapsBefore_slots (60 * dm) sortedl sd hsort p hp
      refine ⟨h1, h2, ?_, h5⟩
      rw [hf2]
      exact le_of_lt (hfiltprop f hf).1
  obtain ⟨h1, h2, h3, h4⟩ := hmain
  refine ⟨h2, h1, h3, ?_⟩
  intro ev hev
  by_cases hin : ev.start_time < ed ∧ ev.end_time > sd
  · have : ev ∈ sortedl := by
      rw [hmemsort]
      rw [hfiltered]
      refine List.mem_filter.mpr ⟨hev, ?_⟩
      simp [hin.1, hin.2]
    rcases h4 ev this with hle | hge <;> omega
  · push_neg at hin
    by_cases hstart : ev.start_time < ed
    · have := hin hstart
      omega
    · omega

/-- C4 part 2: the returned slots are in ascending chronological order — every
slot ends no later than the next one begins. -/
theorem find_free_slots_sorted_chain (sd ed dm : Int) (evs : List Event)
    (hval : ∀ e ∈ evs, e.start_time ≤ e.end_time) :
    (find_free_slots sd ed dm evs).Pairwise (fun p q : Int × Int => p.2 ≤ q.1) := by
  set filtered := evs.filter
    (fun e => decide (e.start_time < ed) && decide (e.end_time > sd)) with hfiltered
  set sortedl := List.insertionSort leStart filtered with hsortedl
  have hsort : sortedl.Pairwise leStart := List.sorted_insertionSort leStart filtered
  have hvalsort : ∀ e ∈ sortedl, e.start_time ≤ e.end_time := by
    intro e he
    have := (List.perm_insertionSort leStart filtered).mem_iff.mp he
    exact hval e (List.mem_of_mem_filter this)
  obtain ⟨hchain, hend⟩ := gapsBefore_chain (60 * dm) sortedl sd hsort hvalsort
  simp only [find_free_slots, ← hfiltered, ← hsortedl]
  by_cases hcond : (gapsBefore (60 * dm) sd sortedl).2 < ed ∧
      ed - (gapsBefore (60 * dm) sd sortedl).2 ≥ 60 * dm
  · rw [if_pos hcond, List.pairwise_append]
    refine ⟨hchain, by simp, ?_⟩
    intro p hp q hq
    have : q = ((gapsBefore (60 * dm) sd sortedl).2, ed) := by simpa using hq
    subst this
    exact hend p hp
  · rw [if_neg hcond]
    exact hchain

/-- C4: every range returned by `find_free_slots` has length at least the
requested number of minutes and overlaps no input busy event, and the
returned list is in ascending chronological order.  The ordering clause uses
the data-model invariant `end_time > start_time` of busy events. -/
theorem find_free_slots_correct (sd ed dm : Int) (evs : List Event)
    (hval : ∀ e ∈ evs, e.start_time < e.end_time) :
    (∀ p ∈ find_free_slots sd ed dm evs,
        p.2 - p.1 ≥ 60 * dm ∧
        ∀ ev ∈ evs, ¬ (p.1 < ev.end_time ∧ ev.start_time < p.2)) ∧
      (find_free_slots sd ed dm evs).Pairwise (fun p q : Int × Int => p.2 ≤ q.1) := by
  refine ⟨?_, find_free_slots_sorted_chain sd ed dm evs
    (fun e he => le_of_lt (hval e he))⟩
  intro p hp
  obtain ⟨h1, _, _, h4⟩ := find_free_slots_spec sd ed dm evs p hp
  exact ⟨h1, h4⟩

theorem find_free_slots_correct_witness :
    (∀ e ∈ [Event.mk 1 "a" ⟨"Exam", 5⟩ 100 200 true],
        e.start_time < e.end_time) ∧
    ((∀ p ∈ find_free_slots 0 300 1 [Event.mk 1 "a" ⟨"Exam", 5⟩ 100 200 true],
        p.2 - p.1 ≥ 60 * 1 ∧
        ∀ ev ∈ [Event.mk 1 "a" ⟨"Exam", 5⟩ 100 200 true],
          ¬ (p.1 < ev.end_time ∧ ev.start_time < p.2)) ∧
      (find_free_slots 0 300 1 [Event.mk 1 "a" ⟨"Exam", 5⟩ 100 200 true]).Pairwise
        (fun p q : Int × Int => p.2 ≤ q.1)) :=
  ⟨by decide, find_free_slots_correct 0 300 1
    [Event.mk 1 "a" ⟨"Exam", 5⟩ 100 200 true] (by decide)⟩

/-! ### Pairwise disjointness of `resolve_conflicts` output (C2) -/

theorem events_overlap_eq_false_iff (e1 e2 : Event) :
    events_overlap e1 e2 = false ↔
      ¬ (e1.start_time < e2.end_time ∧ e2.start_time < e1.end_time) := by
  rw [← Bool.not_eq_true, events_overlap_iff]

/-- The first pass keeps the finalized list pairwise non-overlapping. -/
theorem splitPass_pairwise : ∀ (l acc : List Event),
    acc.Pairwise (fun a b => events_overlap a b = false) →
    (splitPass acc l).1.Pairwise (fun a b => events_overlap a b = false)
  | [], acc, h => by simpa [splitPass] using h
  | e :: rest, acc, h => by
      by_cases hany : acc.any (fun f => events_overlap e f) = true
      · simp only [splitPass, hany, if_pos]
        exact splitPass_pairwise rest acc h
      · simp only [splitPass, hany, Bool.false_eq_true, if_neg, not_false_iff]
        refine splitPass_pairwise rest (acc ++ [e]) ?_
        rw [List.pairwise_append]
        refine ⟨h, List.pairwise_singleton _ _, ?_⟩
        intro a ha b hb
        rw [List.mem_singleton] at hb
        subst hb
        rw [events_overlap_comm]
        have := List.any_eq_false.mp (Bool.not_eq_true _ ▸ hany) a ha
        simpa using this

/-- The rescheduling pass keeps the finalized list pairwise non-overlapping,
provided every deferred event's duration is a whole number of minutes (so the
minute truncation loses nothing) and every slot search succeeded. -/
theorem rescheduleAll_pairwise : ∀ (res fin : List Event),
    fin.Pairwise (fun a b => events_overlap a b = false) →
    (∀ e ∈ res, (60:Int) ∣ (e.end_time - e.start_time)) →
    (rescheduleAll fin res).2 = true →
    (rescheduleAll fin res).1.Pairwise (fun a b => events_overlap a b = false)
  | [], fin, h, _, _ => by simpa [rescheduleAll] using h
  | e :: rest, fin, h, hdur, hflag => by
      rcases hfs : find_free_slots e.start_time (e.start_time + 86400 * 30)
          ((get_event_duration e).tdiv 60) fin with _ | ⟨⟨new_start, slot_end⟩, more⟩
      · simp only [rescheduleAll, hfs] at hflag
        exact absurd hflag (by simp)
      · have hmem : (new_start, slot_end) ∈ find_free_slots e.start_time
            (e.start_time + 86400 * 30) ((get_event_duration e).tdiv 60) fin := by
          rw [hfs]; exact List.mem_cons_self _ _
        obtain ⟨hlen, _, _, hdisj⟩ := find_free_slots_spec _ _ _ _ _ hmem
        have hexact : 60 * (get_event_duration e).tdiv 60 = get_event_duration e := by
          obtain ⟨k, hk⟩ := hdur e (List.mem_cons_self _ _)
          rw [get_event_duration, hk, Int.mul_tdiv_cancel_left k (by norm_num)]
        rw [hexact] at hlen
        simp only [rescheduleAll, hfs] at hflag ⊢
        refine rescheduleAll_pairwise rest _ ?_
          (fun f hf => hdur f (List.mem_cons_of_mem _ hf)) hflag
        rw [List.pairwise_append]
        refine ⟨h, List.pairwise_singleton _ _, ?_⟩
        intro a ha b hb
        rw [List.mem_singleton] at hb
        subst hb
        rw [events_overlap_eq_false_iff]
        simp only
        intro ⟨hab1, hab2⟩
        exact hdisj a ha ⟨by omega, by omega⟩

/-- C2 (amended): if every deferred event's slot search succeeds and every
event's duration is a whole number of minutes, the events returned by
`resolve_conflicts` are pairwise non-overlapping under the half-open rule.
(Without the whole-minutes condition the claim fails: the engine truncates
the required duration to minutes before searching, see the counterexample.) -/
theorem resolve_conflicts_pairwise_disjoint (l : List Event)
    (hdur : ∀ e ∈ l, (60:Int) ∣ (e.end_time - e.start_time))
    (hfound : resolve_all_slots_found l = true) :
    (resolve_conflicts l).Pairwise (fun a b => events_overlap a b = false) := by
  cases l with
  | nil => simp [resolve_conflicts, resolveCore]
  | cons a l' =>
      have hfin : ((splitPass [] (List.insertionSort leResolve (a :: l'))).1).Pairwise
          (fun a b => events_overlap a b = false) :=
        splitPass_pairwise _ [] (List.Pairwise.nil)
      have hdur' : ∀ e ∈ (splitPass [] (List.insertionSort leResolve (a :: l'))).2,
          (60:Int) ∣ (e.end_time - e.start_time) := by
        intro e he
        refine hdur e ?_
        have hmem : e ∈ (splitPass [] (List.insertionSort leResolve (a :: l'))).1 ++
            (splitPass [] (List.insertionSort leResolve (a :: l'))).2 :=
          List.mem_append.mpr (Or.inr he)
        have := (splitPass_perm (List.insertionSort leResolve (a :: l')) []).mem_iff.mp hmem
        simp only [List.nil_append] at this
        exact (List.perm_insertionSort leResolve (a :: l')).mem_iff.mp this
      have hflag : (rescheduleAll (splitPass [] (List.insertionSort leResolve (a :: l'))).1
          (splitPass [] (List.insertionSort leResolve (a :: l'))).2).2 = true := hfound
      exact rescheduleAll_pairwise _ _ hfin hdur' hflag

theorem resolve_conflicts_pairwise_disjoint_witness :
    ((∀ e ∈ [Event.mk 1 "A" ⟨"Exam", 5⟩ 0 3600 true,
             Event.mk 2 "B" ⟨"Study", 4⟩ 0 3600 true],
        (60:Int) ∣ (e.end_time - e.start_time)) ∧
      resolve_all_slots_found [Event.mk 1 "A" ⟨"Exam", 5⟩ 0 3600 true,
        Event.mk 2 "B" ⟨"Study", 4⟩ 0 3600 true] = true) ∧
    (resolve_conflicts [Event.mk 1 "A" ⟨"Exam", 5⟩ 0 3600 true,
        Event.mk 2 "B" ⟨"Study", 4⟩ 0 3600 true]).Pairwise
      (fun a b => events_overlap a b = false) :=
  ⟨⟨by decide, by decide⟩, resolve_conflicts_pairwise_disjoint
    [Event.mk 1 "A" ⟨"Exam", 5⟩ 0 3600 true,
     Event.mk 2 "B" ⟨"Study", 4⟩ 0 3600 true] (by decide) (by decide)⟩

/-- C2 counterexample: with a 90-second event, every deferred event's slot
search succeeds, yet the output contains an overlapping pair — the engine
truncates 90 seconds to 1 minute, finds a 60-second gap, and places the
90-second event so that it spills into the next finalized event. -/
theorem resolve_conflicts_overlap_counterexample :
    resolve_all_slots_found
        [Event.mk 1 "A" ⟨"Exam", 5⟩ 0 100 true,
         Event.mk 2 "C" ⟨"Exam", 5⟩ 160 260 true,
         Event.mk 3 "B" ⟨"Study", 4⟩ 0 90 true] = true ∧
    ¬ (resolve_conflicts
        [Event.mk 1 "A" ⟨"Exam", 5⟩ 0 100 true,
         Event.mk 2 "C" ⟨"Exam", 5⟩ 160 260 true,
         Event.mk 3 "B" ⟨"Study", 4⟩ 0 90 true]).Pairwise
      (fun a b => events_overlap a b = false) := by
  constructor
  · decide
  · decide

/-! ### `resolve_conflicts` and the `is_flexible` flag (C1) -/

/-- C1 counterexample: a non-flexible event that overlaps a higher-priority
finalized event is rescheduled — no event with its identity keeps its
original times in the output. -/
theorem resolve_conflicts_moves_inflexible :
    (Event.mk 2 "B" ⟨"Gaming", 1⟩ 0 6000 false).is_flexible = false ∧
    ¬ (∃ x ∈ resolve_conflicts
          [Event.mk 1 "A" ⟨"Exam", 5⟩ 0 6000 true,
           Event.mk 2 "B" ⟨"Gaming", 1⟩ 0 6000 false],
        x.id = 2 ∧ x.start_time = 0 ∧ x.end_time = 6000) := by
  constructor
  · rfl
  · decide

/-- `e` with its `is_flexible` flag overwritten. -/
def set_is_flexible (b : Bool) (e : Event) : Event := { e with is_flexible := b }

theorem orderedInsert_map (r : Event → Event → Prop) [DecidableRel r] (f : Event → Event)
    (hr : ∀ x y, r (f x) (f y) ↔ r x y) :
    ∀ (a : Event) (l : List Event),
      List.orderedInsert r (f a) (l.map f) = (List.orderedInsert r a l).map f
  | a, [] => rfl
  | a, b :: l => by
      by_cases hc : r a b
      · rw [List.map_cons, List.orderedInsert, List.orderedInsert,
          if_pos ((hr a b).mpr hc), if_pos hc, List.map_cons, List.map_cons]
      · rw [List.map_cons, List.orderedInsert, List.orderedInsert,
          if_neg (fun hx => hc ((hr a b).mp hx)), if_neg hc, List.map_cons,
          orderedInsert_map r f hr a l]

theorem insertionSort_map (r : Event → Event → Prop) [DecidableRel r] (f : Event → Event)
    (hr : ∀ x y, r (f x) (f y) ↔ r x y) :
    ∀ l : List Event, List.insertionSort r (l.map f) = (List.insertionSort r l).map f
  | [] => rfl
  | a :: l => by
      rw [List.map_cons, List.insertionSort, List.insertionSort,
        insertionSort_map r f hr l, orderedInsert_map r f hr]

theorem filter_map_setFlex (b : Bool) (p : Event → Bool)
    (hp : ∀ x, p (set_is_flexible b x) = p x) :
    ∀ l : List Event,
      (l.map (set_is_flexible b)).filter p = (l.filter p).map (set_is_flexible b)
  | [] => rfl
  | a :: l => by
      by_cases hc : p a = true
      · rw [List.map_cons, List.filter_cons_of_pos (by rw [hp]; exact hc),
          List.filter_cons_of_pos hc, List.map_cons, filter_map_setFlex b p hp l]
      · rw [List.map_cons, List.filter_cons_of_neg (by rw [hp]; exact hc),
          List.filter_cons_of_neg hc, filter_map_setFlex b p hp l]

theorem gapsBefore_map (b : Bool) (dd : Int) :
    ∀ (l : List Event) (c : Int),
      gapsBefore dd c (l.map (set_is_flexible b)) = gapsBefore dd c l
  | [], c => rfl
  | e :: l, c => by
      simp only [List.map_cons, gapsBefore, set_is_flexible]
      rw [gapsBefore_map b dd l]

theorem find_free_slots_map (b : Bool) (sd ed dm : Int) (evs : List Event) :
    find_free_slots sd ed dm (evs.map (set_is_flexible b)) =
      find_free_slots sd ed dm evs := by
  simp only [find_free_slots]
  rw [filter_map_setFlex b
      (fun e => decide (e.start_time < ed) && decide (e.end_time > sd)) (fun x => rfl),
    insertionSort_map leStart (set_is_flexible b) (fun x y => Iff.rfl),
    gapsBefore_map b]

theorem splitPass_map (b : Bool) : ∀ (l acc : List Event),
    splitPass (acc.map (set_is_flexible b)) (l.map (set_is_flexible b)) =
      ((splitPass acc l).1.map (set_is_flexible b),
        (splitPass acc l).2.map (set_is_flexible b))
  | [], acc => by simp [splitPass]
  | e :: l, acc => by
      have hany : (acc.map (set_is_flexible b)).any
          (fun f => events_overlap (set_is_flexible b e) f) =
            acc.any (fun f => events_overlap e f) := by
        rw [List.any_map]
        rfl
      by_cases hc : acc.any (fun f => events_overlap e f) = true
      · simp only [List.map_cons, splitPass, hany, hc, if_pos]
        rw [splitPass_map b l acc]
      · simp only [List.map_cons, splitPass, hany, hc, Bool.false_eq_true, if_neg,
          not_false_iff]
        have key := splitPass_map b l (acc ++ [e])
        simp only [List.map_append, List.map_cons, List.map_nil] at key
        exact key

theorem rescheduleAll_map (b : Bool) : ∀ (res fin : List Event),
    rescheduleAll (fin.map (set_is_flexible b)) (res.map (set_is_flexible b)) =
      ((rescheduleAll fin res).1.map (set_is_flexible b), (rescheduleAll fin res).2)
  | [], fin => by simp [rescheduleAll]
  | e :: rest, fin => by
      have hdur : get_event_duration (set_is_flexible b e) = get_event_duration e := rfl
      have hfs : find_free_slots (set_is_flexible b e).start_time
          ((set_is_flexible b e).start_time + 86400 * 30)
          ((get_event_duration (set_is_flexible b e)).tdiv 60)
          (fin.map (set_is_flexible b)) =
        find_free_slots e.start_time (e.start_time + 86400 * 30)
          ((get_event_duration e).tdiv 60) fin := by
        rw [hdur, find_free_slots_map]
        rfl
      rcases hslots : find_free_slots e.start_time (e.start_time + 86400 * 30)
          ((get_event_duration e).tdiv 60) fin with _ | ⟨⟨ns, se⟩, more⟩
      · simp only [List.map_cons, rescheduleAll, hfs, hslots]
        have key := rescheduleAll_map b rest (fin ++ [e])
        simp only [List.map_append, List.map_cons, List.map_nil] at key
        rw [key]
      · simp only [List.map_cons, rescheduleAll, hfs, hslots]
        have key := rescheduleAll_map b rest
          (fin ++ [{ e with start_time := ns, end_time := ns + get_event_duration e }])
        simp only [List.map_append, List.map_cons, List.map_nil] at key
        exact key

/-- C1 (amended): `resolve_conflicts` never reads `is_flexible` — overwriting
every flag (in particular marking every event non-flexible) changes nothing
but the flags in the output.  A non-flexible event overlapping a
higher-priority finalized event is rescheduled exactly like a flexible one. -/
theorem resolve_conflicts_ignores_flexibility (l : List Event) (b : Bool) :
    resolve_conflicts (l.map (set_is_flexible b)) =
      (resolve_conflicts l).map (set_is_flexible b) := by
  cases l with
  | nil => rfl
  | cons a l' =>
      simp only [resolve_conflicts, resolveCore, List.map_cons]
      rw [← List.map_cons (set_is_flexible b) a l',
        insertionSort_map leResolve (set_is_flexible b) (fun x y => Iff.rfl)]
      have hsp := splitPass_map b (List.insertionSort leResolve (a :: l')) []
      simp only [List.map_nil] at hsp
      rw [hsp]
      rw [rescheduleAll_map b]

/-! ### Completeness and soundness of `detect_conflicts` (C3) -/

theorem innerScan_sound : ∀ (a : Event) (l : List Event) (p : Event × Event),
    p ∈ innerScan a l →
    p.1 = a ∧ p.2 ∈ l ∧ p.1.start_time < p.2.end_time ∧ p.2.start_time < p.1.end_time
  | a, [], p, hp => absurd hp (List.not_mem_nil p)
  | a, b :: rest, p, hp => by
      by_cases hbrk : a.end_time ≤ b.start_time
      · rw [innerScan, if_pos hbrk] at hp
        exact absurd hp (List.not_mem_nil p)
      · rw [innerScan, if_neg hbrk] at hp
        by_cases hov : a.start_time < b.end_time ∧ b.start_time < a.end_time
        · rw [if_pos hov] at hp
          rcases List.mem_cons.mp hp with rfl | hp'
          · exact ⟨rfl, List.mem_cons_self _ _, hov.1, hov.2⟩
          · obtain ⟨h1, h2, h3, h4⟩ := innerScan_sound a rest p hp'
            exact ⟨h1, List.mem_cons_of_mem _ h2, h3, h4⟩
        · rw [if_neg hov] at hp
          obtain ⟨h1, h2, h3, h4⟩ := innerScan_sound a rest p hp
          exact ⟨h1, List.mem_cons_of_mem _ h2, h3, h4⟩

theorem detectAux_sound : ∀ (l : List Event) (p : Event × Event), p ∈ detectAux l →
    p.1.start_time < p.2.end_time ∧ p.2.start_time < p.1.end_time
  | [], p, hp => absurd hp (List.not_mem_nil p)
  | a :: rest, p, hp => by
      rcases List.mem_append.mp hp with h | h
      · exact (innerScan_sound a rest p h).2.2
      · exact detectAux_sound rest p h

theorem innerScan_complete (a y : Event) : ∀ (l : List Event),
    (a :: l).Pairwise leStart → y ∈ l →
    a.start_time < y.end_time → y.start_time < a.end_time →
    (a, y) ∈ innerScan a l
  | [], _, hy, _, _ => absurd hy (List.not_mem_nil y)
  | c :: rest, hsort, hy, h1, h2 => by
      have htail : (c :: rest).Pairwise leStart := (List.pairwise_cons.mp hsort).2
      have hcy : c.start_time ≤ y.start_time := by
        rcases List.mem_cons.mp hy with rfl | hy'
        · exact le_refl _
        · exact (List.pairwise_cons.mp htail).1 y hy'
      have hbrk : ¬ a.end_time ≤ c.start_time := by omega
      rw [innerScan, if_neg hbrk]
      rcases List.mem_cons.mp hy with rfl | hy'
      · rw [if_pos ⟨h1, h2⟩]
        exact List.mem_cons_self _ _
      · have hsub : List.Sublist (a :: rest) (a :: c :: rest) :=
          (List.sublist_cons_self c rest).cons₂ a
        have hrec := innerScan_complete a y rest (hsort.sublist hsub) hy' h1 h2
        by_cases hov : a.start_time < c.end_time ∧ c.start_time < a.end_time
        · rw [if_pos hov]
          exact List.mem_cons_of_mem _ hrec
        · rw [if_neg hov]
          exact hrec

theorem detectAux_complete : ∀ (u v : List Event) (a y : Event),
    (u ++ a :: v).Pairwise leStart → y ∈ v →
    a.start_time < y.end_time → y.start_time < a.end_time →
    (a, y) ∈ detectAux (u ++ a :: v)
  | [], v, a, y, hsort, hy, h1, h2 => by
      rw [List.nil_append] at hsort ⊢
      exact List.mem_append.mpr (Or.inl (innerScan_complete a y v hsort hy h1 h2))
  | c :: u', v, a, y, hsort, hy, h1, h2 => by
      rw [List.cons_append] at hsort ⊢
      refine List.mem_append.mpr (Or.inr ?_)
      exact detectAux_complete u' v a y (List.pairwise_cons.mp hsort).2 hy h1 h2

/-- C3: for distinct events `a`, `b` of the input list, `detect_conflicts`
reports the pair (in one of the two orders) exactly when the half-open
overlap rule `a.start < b.end AND b.start < a.end` holds — the sorted-order
early exit loses no overlapping pair. -/
theorem detect_conflicts_iff (l : List Event) (a b : Event)
    (ha : a ∈ l) (hb : b ∈ l) (hab : a ≠ b) :
    ((a, b) ∈ detect_conflicts l ∨ (b, a) ∈ detect_conflicts l) ↔
      (a.start_time < b.end_time ∧ b.start_time < a.end_time) := by
  constructor
  · intro h
    rcases h with h | h
    · exact detectAux_sound _ _ h
    · have := detectAux_sound _ _ h
      exact ⟨this.2, this.1⟩
  · intro ⟨h1, h2⟩
    have hsort : (List.insertionSort leStart l).Pairwise leStart :=
      List.sorted_insertionSort leStart l
    have ha' : a ∈ List.insertionSort leStart l :=
      (List.perm_insertionSort leStart l).mem_iff.mpr ha
    have hb' : b ∈ List.insertionSort leStart l :=
      (List.perm_insertionSort leStart l).mem_iff.mpr hb
    obtain ⟨u, v, huv⟩ := List.append_of_mem ha'
    rw [huv] at hb' hsort
    rcases List.mem_append.mp hb' with hbu | hbav
    · -- b occurs before a in the sorted list
      obtain ⟨u1, u2, hu⟩ := List.append_of_mem hbu
      have hs2 : u ++ a :: v = u1 ++ b :: (u2 ++ a :: v) := by
        rw [hu]
        simp [List.append_assoc]
      refine Or.inr ?_
      unfold detect_conflicts
      rw [huv, hs2]
      refine detectAux_complete u1 (u2 ++ a :: v) b a (by rw [← hs2]; exact hsort) ?_ h2 h1
      exact List.mem_append.mpr (Or.inr (List.mem_cons_self _ _))
    · rcases List.mem_cons.mp hbav with rfl | hbv
      · exact absurd rfl hab
      · refine Or.inl ?_
        unfold detect_conflicts
        rw [huv]
        exact detectAux_complete u v a b hsort hbv h1 h2

theorem detect_conflicts_iff_witness :
    ((Event.mk 1 "a" ⟨"Exam", 5⟩ 0 100 true) ∈
        [Event.mk 1 "a" ⟨"Exam", 5⟩ 0 100 true, Event.mk 2 "b" ⟨"Gym", 3⟩ 50 150 true] ∧
      (Event.mk 2 "b" ⟨"Gym", 3⟩ 50 150 true) ∈
        [Event.mk 1 "a" ⟨"Exam", 5⟩ 0 100 true, Event.mk 2 "b" ⟨"Gym", 3⟩ 50 150 true] ∧
      Event.mk 1 "a" ⟨"Exam", 5⟩ 0 100 true ≠ Event.mk 2 "b" ⟨"Gym", 3⟩ 50 150 true) ∧
    (((Event.mk 1 "a" ⟨"Exam", 5⟩ 0 100 true, Event.mk 2 "b" ⟨"Gym", 3⟩ 50 150 true) ∈
        detect_conflicts
          [Event.mk 1 "a" ⟨"Exam", 5⟩ 0 100 true, Event.mk 2 "b" ⟨"Gym", 3⟩ 50 150 true] ∨
      (Event.mk 2 "b" ⟨"Gym", 3⟩ 50 150 true, Event.mk 1 "a" ⟨"Exam", 5⟩ 0 100 true) ∈
        detect_conflicts
          [Event.mk 1 "a" ⟨"Exam", 5⟩ 0 100 true, Event.mk 2 "b" ⟨"Gym", 3⟩ 50 150 true]) ↔
      ((Event.mk 1 "a" ⟨"Exam", 5⟩ 0 100 true).start_time <
          (Event.mk 2 "b" ⟨"Gym", 3⟩ 50 150 true).end_time ∧
        (Event.mk 2 "b" ⟨"Gym", 3⟩ 50 150 true).start_time <
          (Event.mk 1 "a" ⟨"Exam", 5⟩ 0 100 true).end_time)) :=
  ⟨⟨by decide, by decide, by decide⟩,
    detect_conflicts_iff
      [Event.mk 1 "a" ⟨"Exam", 5⟩ 0 100 true, Event.mk 2 "b" ⟨"Gym", 3⟩ 50 150 true]
      (Event.mk 1 "a" ⟨"Exam", 5⟩ 0 100 true) (Event.mk 2 "b" ⟨"Gym", 3⟩ 50 150 true)
      (by decide) (by decide) (by decide)⟩

/-!
### Temporal expression parser (`ai_agent/parsers.py`, `TemporalExpressionParser`)

Modelling conventions for this section:
* `parse` lowercases its input before every helper is called, so all the
  functions below are modelled on the lowercased text.
* Local datetimes are `Int` seconds in the user's (fixed-offset) timezone,
  with second 0 at 00:00 of a Monday, so Python's `dt.weekday()` is
  `(t / 86400) % 7` (Monday = 0) and `pytz.localize` of a naive datetime is
  the identity.  DST transitions are not modelled; no claim depends on them.
* The regular expression
  `(?:at\s+)?(\d{1,2})(?::(\d{2}))?\s*(am|pm|AM|PM)` of `_get_time_of_day`
  is modelled by an explicit backtracking scanner.  The optional `at\s+`
  prefix is dropped: whenever it participates in a match the captured groups
  are exactly those of the clock-time core starting right after it (no digit
  can occur inside `at` + spaces), so the captures are unchanged.  The
  `AM|PM` branches are subsumed by lowercasing.
-/

/-- Python `\d` (ASCII). -/
def isDigitChar (c : Char) : Bool := decide ('0' ≤ c) && decide (c ≤ '9')

/-- Python `\s` (ASCII whitespace). -/
def isSpaceChar (c : Char) : Bool :=
  c = ' ' || c = '\t' || c = '\n' || c = '\r' || c = '\x0b' || c = '\x0c'

def digitVal (c : Char) : Nat := c.toNat - '0'.toNat

/-- The `(am|pm)` group: `some true` for `pm`. -/
def matchMeridiem : List Char → Option Bool
  | 'a' :: 'm' :: _ => some false
  | 'p' :: 'm' :: _ => some true
  | _ => none

/-- The optional `(?::(\d{2}))` group: a colon followed by exactly two
digits. -/
def matchColonMin : List Char → Option (Nat × List Char)
  | ':' :: a :: b :: rest =>
      if isDigitChar a && isDigitChar b then some (10 * digitVal a + digitVal b, rest)
      else none
  | _ => none

/-- After the hour digits: greedily try the colon-minute group, then `\s*`,
then the mandatory meridiem; on failure backtrack to the no-minute branch. -/
def matchFromHour (h : Nat) (rest : List Char) : Option (Nat × Nat × Bool) :=
  match matchColonMin rest with
  | some (m, rest2) =>
      match matchMeridiem (rest2.dropWhile isSpaceChar) with
      | some pm => some (h, m, pm)
      | none =>
          match matchMeridiem (rest.dropWhile isSpaceChar) with
          | some pm => some (h, 0, pm)
          | none => none
  | none =>
      match matchMeridiem (rest.dropWhile isSpaceChar) with
      | some pm => some (h, 0, pm)
      | none => none

/-- The clock-time core at one position: `(\d{1,2})` greedily takes two
digits, backtracking to one. -/
def matchTimeAt : List Char → Option (Nat × Nat × Bool)
  | [] => none
  | c1 :: rest1 =>
      if isDigitChar c1 then
        match rest1 with
        | c2 :: rest2 =>
            if isDigitChar c2 then
              match matchFromHour (10 * digitVal c1 + digitVal c2) rest2 with
              | some r => some r
              | none => matchFromHour (digitVal c1) rest1
            else matchFromHour (digitVal c1) rest1
        | [] => matchFromHour (digitVal c1) []
      else none

/-- `re.search` for the clock-time pattern: leftmost matching position. -/
def searchTime : List Char → Option (Nat × Nat × Bool)
  | [] => none
  | c :: rest =>
      match matchTimeAt (c :: rest) with
      | some r => some r
      | none => searchTime rest

/-- `needle` is a prefix of `haystack`. -/
def startsWithChars : List Char → List Char → Bool
  | [], _ => true
  | _ :: _, [] => false
  | a :: as, b :: bs => a = b && startsWithChars as bs

/-- Python's substring test `needle in haystack`. -/
def containsSub (needle : List Char) : List Char → Bool
  | [] => startsWithChars needle []
  | c :: rest => startsWithChars needle (c :: rest) || containsSub needle rest

/-- `TemporalExpressionParser._get_time_of_day` (on lowercased text): a clock
time with a meridiem if the pattern matches, else the first of
morning/afternoon/evening/night present as a substring (the `TIME_OF_DAY`
dict in insertion order), else 14:00. -/
def get_time_of_day (text : String) : Int × Int :=
  match searchTime text.toList with
  | some (h, m, pm) =>
      let hour : Int := if pm ∧ h ≠ 12 then (h : Int) + 12
                        else if ¬ pm ∧ h = 12 then 0 else (h : Int)
      (hour, (m : Int))
  | none =>
      if containsSub "morning".toList text.toList then (9, 0)
      else if containsSub "afternoon".toList text.toList then (14, 0)
      else if containsSub "evening".toList text.toList then (18, 0)
      else if containsSub "night".toList text.toList then (20, 0)
      else (14, 0)

/-- The unit alternation `(?:hour|hr|hours|hrs)`: it matches exactly when
`hour` or `hr` is a prefix (the longer alternatives extend these two). -/
def matchHourUnit (l : List Char) : Bool :=
  startsWithChars "hour".toList l || startsWithChars "hr".toList l

/-- The unit alternation `(?:minute|min|minutes|mins)`: it matches exactly
when `min` is a prefix (every alternative extends `min`). -/
def matchMinuteUnit (l : List Char) : Bool :=
  startsWithChars "min".toList l

def digitsToNat (ds : List Char) : Nat :=
  ds.foldl (fun acc c => 10 * acc + digitVal c) 0

/-- The hours pattern `(?:for\s+)?(\d+(?:\.\d+)?)\s*(?:hour|hr|hours|hrs)` at
one position, returning `timedelta(hours=value)` in seconds.  As with the
clock-time pattern, the optional `for\s+` prefix never changes the captured
number and is dropped.  A decimal fraction is converted exactly when the
resulting number of seconds is integral (flooring otherwise; Python stores a
float of hours, and no claim depends on sub-second rounding). -/
def matchHoursAt (l : List Char) : Option Int :=
  let ds := l.takeWhile isDigitChar
  let rest := l.dropWhile isDigitChar
  if ds.isEmpty then none
  else
    let fr :=
      match rest with
      | '.' :: r =>
          if (r.takeWhile isDigitChar).isEmpty then (([] : List Char), rest)
          else (r.takeWhile isDigitChar, r.dropWhile isDigitChar)
      | _ => (([] : List Char), rest)
    let rest3 := fr.2.dropWhile isSpaceChar
    if matchHourUnit rest3 then
      some (((digitsToNat ds * 3600 * 10 ^ fr.1.length + digitsToNat fr.1 * 3600) /
        10 ^ fr.1.length : Nat) : Int)
    else none

/-- The minutes pattern `(?:for\s+)?(\d+)\s*(?:minute|min|minutes|mins)` at
one position, in seconds. -/
def matchMinutesAt (l : List Char) : Option Int :=
  let ds := l.takeWhile isDigitChar
  if ds.isEmpty then none
  else
    let rest := (l.dropWhile isDigitChar).dropWhile isSpaceChar
    if matchMinuteUnit rest then some ((digitsToNat ds : Int) * 60) else none

/-- `re.search` for a duration pattern: leftmost matching position. -/
def searchDuration (f : List Char → Option Int) : List Char → Option Int
  | [] => none
  | c :: rest =>
      match f (c :: rest) with
      | some r => some r
      | none => searchDuration f rest

/-- `TemporalExpressionParser._extract_duration` (on lowercased text): hours
take precedence over minutes; default one hour. -/
def extract_duration (text : String) : Int :=
  match searchDuration matchHoursAt text.toList with
  | some d => d
  | none =>
      match searchDuration matchMinutesAt text.toList with
      | some d => d
      | none => 3600

/-- The `WEEKDAYS` alias dictionary, in insertion order. -/
def WEEKDAYS_TABLE : List (String × Nat) :=
  [("monday", 0), ("mon", 0),
   ("tuesday", 1), ("tue", 1), ("tues", 1),
   ("wednesday", 2), ("wed", 2),
   ("thursday", 3), ("thu", 3), ("thur", 3), ("thurs", 3),
   ("friday", 4), ("fri", 4),
   ("saturday", 5), ("sat", 5),
   ("sunday", 6), ("sun", 6)]

/-- Dictionary lookup in `WEEKDAYS`. -/
def WEEKDAYS (name : String) : Option Nat :=
  (WEEKDAYS_TABLE.find? (fun p => p.1 == name)).map Prod.snd

/-- `TemporalExpressionParser._get_next_weekday`: next occurrence of the
weekday strictly after today (same weekday rolls 7 days ahead), at the
text's time of day.  Callers only pass keys of `WEEKDAYS` (the `parse`
regular expression guarantees it); for totality a missing key defaults to 0,
and every theorem hypothesises a present key. -/
def get_next_weekday (weekday_name : String) (text : String) (ref : Int) : Int :=
  let target_weekday : Int := ((WEEKDAYS weekday_name).getD 0 : Nat)
  let current_weekday : Int := (ref.ediv 86400).emod 7
  let diff := target_weekday - current_weekday
  let days_ahead := if diff ≤ 0 then diff + 7 else diff
  let hm := get_time_of_day text
  ((ref + days_ahead * 86400).ediv 86400) * 86400 + hm.1 * 3600 + hm.2 * 60

/-- The `while current_date <= day2_date` loop of `_parse_multi_day_range`:
one `(start, start + duration)` entry per day, stepping one day at a time. -/
def rangeLoop (day2_date duration : Int) (current_date : Int) : List (Int × Int) :=
  if current_date ≤ day2_date then
    (current_date, current_date + duration) :: rangeLoop day2_date duration (current_date + 86400)
  else []
termination_by (day2_date + 86400 - current_date).toNat
decreasing_by omega

/-- `TemporalExpressionParser._parse_multi_day_range`: identical name strings
give a single entry; otherwise the second day is pushed a week ahead when it
does not fall strictly after the first, and one entry per day is emitted. -/
def parse_multi_day_range (day1_name day2_name : String) (text : String) (ref : Int) :
    List (Int × Int) :=
  let duration := extract_duration text
  if day1_name = day2_name then
    let day_date := get_next_weekday day1_name text ref
    [(day_date, day_date + duration)]
  else
    let day1_date := get_next_weekday day1_name text ref
    let day2_date := get_next_weekday day2_name text ref
    let day2_date' := if day2_date ≤ day1_date then day2_date + 7 * 86400 else day2_date
    rangeLoop day2_date' duration day1_date

/-! ### Time-of-day extraction (C7) -/

/-- C7: the clock-time regular expression demands a meridiem, so a 24-hour
colon time such as `16:30` is NOT picked up — the function falls through to
the word table and then to the 14:00 default — while a meridiem time and the
time-of-day words behave as specified. -/
theorem get_time_of_day_requires_meridiem :
    get_time_of_day "today at 16:30" = (14, 0) ∧
    get_time_of_day "today at 4:30pm" = (16, 30) ∧
    get_time_of_day "9pm" = (21, 0) ∧
    get_time_of_day "evening" = (18, 0) ∧
    get_time_of_day "plain text" = (14, 0) := by
  refine ⟨by decide, by decide, by decide, by decide, by decide⟩

/-! ### Multi-day ranges (C8) -/

theorem WEEKDAYS_lt_7 (name : String) (t : Nat) (h : WEEKDAYS name = some t) :
    t < 7 := by
  unfold WEEKDAYS at h
  obtain ⟨p, hp, hp2⟩ := Option.map_eq_some'.mp h
  have hmem := List.mem_of_find?_eq_some hp
  have hall : ∀ q ∈ WEEKDAYS_TABLE, q.2 < 7 := by decide
  rw [← hp2]
  exact hall p hmem

/-- `_get_next_weekday` lands `a ∈ [1,7]` days ahead of the reference day, at
the text's time of day. -/
theorem get_next_weekday_decompose (weekday_name text : String) (ref : Int) (t : Nat)
    (h : WEEKDAYS weekday_name = some t) :
    ∃ a : Int, 1 ≤ a ∧ a ≤ 7 ∧
      get_next_weekday weekday_name text ref =
        (ref.ediv 86400 + a) * 86400 +
          (get_time_of_day text).1 * 3600 + (get_time_of_day text).2 * 60 := by
  have ht : t < 7 := WEEKDAYS_lt_7 weekday_name t h
  have ht' : (t : Int) < 7 := by exact_mod_cast ht
  have ht0 : (0 : Int) ≤ (t : Int) := Int.natCast_nonneg t
  simp only [get_next_weekday, h, Option.getD_some]
  have hcw0 : 0 ≤ (ref.ediv 86400).emod 7 := Int.emod_nonneg _ (by norm_num)
  have hcw7 : (ref.ediv 86400).emod 7 < 7 := Int.emod_lt_of_pos _ (by norm_num)
  by_cases hd : (t : Int) - (ref.ediv 86400).emod 7 ≤ 0
  · refine ⟨(t : Int) - (ref.ediv 86400).emod 7 + 7, by omega, by omega, ?_⟩
    rw [if_pos hd,
      (show (ref + ((t : Int) - (ref.ediv 86400).emod 7 + 7) * 86400).ediv 86400 =
          ref.ediv 86400 + ((t : Int) - (ref.ediv 86400).emod 7 + 7) from
        Int.add_mul_ediv_right ref _ (by norm_num))]
  · refine ⟨(t : Int) - (ref.ediv 86400).emod 7, by omega, by omega, ?_⟩
    rw [if_neg hd,
      (show (ref + ((t : Int) - (ref.ediv 86400).emod 7) * 86400).ediv 86400 =
          ref.ediv 86400 + ((t : Int) - (ref.ediv 86400).emod 7) from
        Int.add_mul_ediv_right ref _ (by norm_num))]

/-- Unrolling of the day loop when the distance is a whole number of days. -/
theorem rangeLoop_spec : ∀ (k : Nat) (current day2 dur : Int),
    day2 - current = 86400 * k →
    rangeLoop day2 dur current =
      (List.range (k + 1)).map
        (fun i : Nat => (current + 86400 * (i : Int), current + 86400 * (i : Int) + dur))
  | 0, current, day2, dur, h => by
      have h0 : day2 - current = 0 := by push_cast at h; omega
      rw [rangeLoop, if_pos (by omega : current ≤ day2), rangeLoop,
        if_neg (by omega : ¬ current + 86400 ≤ day2)]
      simp [List.range_succ]
  | k + 1, current, day2, dur, h => by
      have h' : day2 - (current + 86400) = 86400 * k := by push_cast at h ⊢; omega
      have hc : current ≤ day2 := by push_cast at h; omega
      rw [rangeLoop, if_pos hc, rangeLoop_spec k (current + 86400) day2 dur h']
      conv_rhs => rw [List.range_succ_eq_map, List.map_cons, List.map_map]
      congr 1
      · simp
      · apply List.map_congr_left
        intro i _
        simp only [Function.comp_apply, Nat.succ_eq_add_one, Prod.mk.injEq]
        constructor <;> push_cast <;> ring

/-- C8 (amended): for weekday tokens present in the alias table,
`_parse_multi_day_range` returns a single entry exactly when the two tokens
are the same string; otherwise it emits one entry per calendar day from the
first weekday's next occurrence through the second's, adding 7 days to the
second when it does not fall strictly after the first — so two distinct
aliases of the same weekday produce an 8-day range, not a single entry. -/
theorem parse_multi_day_range_spec (day1_name day2_name text : String) (ref : Int)
    (t1 t2 : Nat) (h1 : WEEKDAYS day1_name = some t1) (h2 : WEEKDAYS day2_name = some t2) :
    (day1_name = day2_name →
      parse_multi_day_range day1_name day2_name text ref =
        [(get_next_weekday day1_name text ref,
          get_next_weekday day1_name text ref + extract_duration text)]) ∧
    (day1_name ≠ day2_name →
      ∃ k : Nat,
        (if get_next_weekday day2_name text ref ≤ get_next_weekday day1_name text ref
          then get_next_weekday day2_name text ref + 7 * 86400
          else get_next_weekday day2_name text ref) -
            get_next_weekday day1_name text ref = 86400 * k ∧
        parse_multi_day_range day1_name day2_name text ref =
          (List.range (k + 1)).map
            (fun i : Nat => (get_next_weekday day1_name text ref + 86400 * (i : Int),
              get_next_weekday day1_name text ref + 86400 * (i : Int) +
                extract_duration text))) := by
  constructor
  · intro heq
    simp [parse_multi_day_range, heq]
  · intro hne
    obtain ⟨a1, ha1a, ha1b, hd1⟩ := get_next_weekday_decompose day1_name text ref t1 h1
    obtain ⟨a2, ha2a, ha2b, hd2⟩ := get_next_weekday_decompose day2_name text ref t2 h2
    by_cases hle : get_next_weekday day2_name text ref ≤ get_next_weekday day1_name text ref
    · have hk : (get_next_weekday day2_name text ref + 7 * 86400) -
          get_next_weekday day1_name text ref = 86400 * ((a2 + 7 - a1).toNat : Int) := by
        rw [hd1, hd2]
        rw [hd1, hd2] at hle
        have : a2 ≤ a1 := by nlinarith
        have habs : ((a2 + 7 - a1).toNat : Int) = a2 + 7 - a1 := Int.toNat_of_nonneg (by omega)
        rw [habs]
        ring
      refine ⟨(a2 + 7 - a1).toNat, ?_, ?_⟩
      · rw [if_pos hle]
        exact hk
      · simp only [parse_multi_day_range, if_neg hne]
        rw [if_pos hle]
        exact rangeLoop_spec _ _ _ _ (by rw [hk])
    · have hgt := lt_of_not_le hle
      have hk : get_next_weekday day2_name text ref -
          get_next_weekday day1_name text ref = 86400 * ((a2 - a1).toNat : Int) := by
        rw [hd1, hd2]
        rw [hd1, hd2] at hgt
        have : a1 < a2 := by nlinarith
        have habs : ((a2 - a1).toNat : Int) = a2 - a1 := Int.toNat_of_nonneg (by omega)
        rw [habs]
        ring
      refine ⟨(a2 - a1).toNat, ?_, ?_⟩
      · rw [if_neg hle]
        exact hk
      · simp only [parse_multi_day_range, if_neg hne]
        rw [if_neg hle]
        exact rangeLoop_spec _ _ _ _ (by rw [hk])

theorem parse_multi_day_range_spec_witness :
    (WEEKDAYS "mon" = some 0 ∧ WEEKDAYS "tue" = some 1) ∧
    (("mon" : String) = "tue" →
      parse_multi_day_range "mon" "tue" "mon and tue" 0 =
        [(get_next_weekday "mon" "mon and tue" 0,
          get_next_weekday "mon" "mon and tue" 0 + extract_duration "mon and tue")]) ∧
    (("mon" : String) ≠ "tue" →
      ∃ k : Nat,
        (if get_next_weekday "tue" "mon and tue" 0 ≤ get_next_weekday "mon" "mon and tue" 0
          then get_next_weekday "tue" "mon and tue" 0 + 7 * 86400
          else get_next_weekday "tue" "mon and tue" 0) -
            get_next_weekday "mon" "mon and tue" 0 = 86400 * k ∧
        parse_multi_day_range "mon" "tue" "mon and tue" 0 =
          (List.range (k + 1)).map
            (fun i : Nat => (get_next_weekday "mon" "mon and tue" 0 + 86400 * (i : Int),
              get_next_weekday "mon" "mon and tue" 0 + 86400 * (i : Int) +
                extract_duration "mon and tue"))) :=
  ⟨⟨by decide, by decide⟩,
    parse_multi_day_range_spec "mon" "tue" "mon and tue" 0 0 1 (by decide) (by decide)⟩

/-- C8 counterexample: `wed` and `wednesday` are different alias spellings of
the same weekday; the name-string comparison misses them, the second
occurrence (equal to the first) is pushed 7 days ahead, and the loop emits 8
entries instead of the claimed single entry. -/
theorem parse_multi_day_range_alias_counterexample :
    WEEKDAYS "wed" = some 2 ∧ WEEKDAYS "wednesday" = some 2 ∧
    (parse_multi_day_range "wed" "wednesday" "wed and wednesday" 0).length = 8 := by
  refine ⟨by decide, by decide, ?_⟩
  have h1 : get_next_weekday "wed" "wed and wednesday" 0 = 223200 := by decide
  have h2 : get_next_weekday "wednesday" "wed and wednesday" 0 = 223200 := by decide
  have hloop := rangeLoop_spec 7 223200 828000 (extract_duration "wed and wednesday")
    (by norm_num)
  have hne : ("wed" : String) ≠ "wednesday" := by decide
  have hunfold : parse_multi_day_range "wed" "wednesday" "wed and wednesday" 0 =
      rangeLoop 828000 (extract_duration "wed and wednesday") 223200 := by
    simp only [parse_multi_day_range, if_neg hne, h1, h2]
    norm_num
  rw [hunfold, hloop]
  simp

/-!
### Atomic persistence wrapper (C9)

The multi-record entry points of `SchedulingEngine`
(`optimize_schedule`, `create_exam_study_sessions`, `bulk_update_events`,
`bulk_delete_events`) wrap their writes and the single audit-log creation in
`with transaction.atomic():`, catch any exception only to log it, and
re-raise.  The persistence layer itself (Django ORM / the relational store)
is not part of this repository, so it is modelled from the spec:

* a `DB` is the persisted state (event rows plus append-only audit rows);
* `Event.save()` / queryset `delete()` / `SchedulingLog.objects.create()`
  may raise, controlled by failure oracles (`oracle`, `delFail`, `logFail`);
  a successful save upserts one row, a failed primitive leaves the store as
  it was before that one primitive;
* `atomicBlock` is `transaction.atomic()`: if the body raises, every write
  inside the block is undone (the caller observes the entry state) and the
  exception propagates; the `except: logger.error(...); raise` wrappers do
  not change state or outcome and are therefore the identity.
-/

/-- An audit row (`SchedulingLog`): action tag plus the event-id payload. -/
structure SchedulingLogRec where
  action : String
  event_ids : List Nat
deriving DecidableEq, Repr

/-- Modelled from the spec: the persisted state visible to one user — the
relational store holding that user's event rows and audit rows. -/
structure DB where
  events : List Event
  logs : List SchedulingLogRec
deriving DecidableEq, Repr

/-- Upsert one event row by primary key. -/
def upsertEvent (e : Event) (events : List Event) : List Event :=
  if events.any (fun x => x.id == e.id) then
    events.map (fun x => if x.id == e.id then e else x)
  else events ++ [e]

/-- Modelled from the spec: `event.save()`; `oracle e = true` models an
infrastructure failure raising on that write. -/
def saveEvent (oracle : Event → Bool) (db : DB) (e : Event) : DB × Except Unit Unit :=
  if oracle e then (db, Except.error ())
  else ({ db with events := upsertEvent e db.events }, Except.ok ())

/-- The `for event in ...: event.save()` loops: save in order, stopping at
the first raising write (later writes do not run), keeping partial state. -/
def saveAll (oracle : Event → Bool) : List Event → DB → DB × Except Unit Unit
  | [], db => (db, Except.ok ())
  | e :: rest, db =>
      match saveEvent oracle db e with
      | (db', Except.ok _) => saveAll oracle rest db'
      | (db', Except.error er) => (db', Except.error er)

/-- `SchedulingLog.objects.create(...)`: append one audit row. -/
def addLog (r : SchedulingLogRec) (db : DB) : DB :=
  { db with logs := db.logs ++ [r] }

/-- Modelled from the spec: Django's `transaction.atomic()` — all-or-nothing:
if the body raises, every write inside the block is rolled back and the
exception propagates to the caller. -/
def atomicBlock {α : Type} (body : DB → DB × Except Unit α) (db : DB) :
    DB × Except Unit α :=
  match body db with
  | (db', Except.ok a) => (db', Except.ok a)
  | (_, Except.error er) => (db, Except.error er)

/-- The `Event.objects.filter(start_time__lt=ed, end_time__gt=sd)` query with
the model's default `start_time` ordering. -/
def queryWindow (sd ed : Int) (db : DB) : List Event :=
  List.insertionSort leStart
    (db.events.filter (fun e => decide (e.start_time < ed) && decide (e.end_time > sd)))

/-- `SchedulingEngine.optimize_schedule`: query the window, resolve in
memory, then (when `save_to_db`) atomically save every optimized event and
one `OPTIMIZE` audit row, re-raising any failure. -/
def optimize_schedule (oracle : Event → Bool) (logFail : Bool) (sd ed : Int)
    (save_to_db : Bool) (db : DB) : DB × Except Unit (List Event) :=
  let events := queryWindow sd ed db
  if events.isEmpty then (db, Except.ok [])
  else
    let optimized := resolve_conflicts events
    if save_to_db then
      atomicBlock (fun db0 =>
        match saveAll oracle optimized db0 with
        | (db1, Except.ok _) =>
            if logFail then (db1, Except.error ())
            else (addLog ⟨"OPTIMIZE", optimized.map Event.id⟩ db1, Except.ok optimized)
        | (db1, Except.error er) => (db1, Except.error er)) db
    else (db, Except.ok optimized)

/-- The in-memory construction of the study sessions of
`create_exam_study_sessions`: session `i` starts `num_sessions - i` days
before the exam at 14:00 and lasts `session_duration_minutes`; ids are the
fresh rows the store would assign. -/
def build_study_sessions (exam : Event) (num_sessions : Nat)
    (session_duration_minutes : Int) (study_category : Category) (next_id : Nat) :
    List Event :=
  (List.range num_sessions).map (fun i : Nat =>
    let days_before : Int := (num_sessions : Int) - (i : Int)
    let study_start :=
      ((exam.start_time - days_before * 86400).ediv 86400) * 86400 + 14 * 3600
    { id := next_id + i,
      title := "Study for " ++ exam.title,
      category := study_category,
      start_time := study_start,
      end_time := study_start + session_duration_minutes * 60,
      is_flexible := true })

/-- `SchedulingEngine.create_exam_study_sessions`: build the sessions, then
(when `save_to_db`) atomically save them, re-query the affected window,
resolve conflicts, save the resolved events, and append one audit row;
any failure rolls everything back and is re-raised. -/
def create_exam_study_sessions (oracle : Event → Bool) (logFail : Bool)
    (exam : Event) (num_sessions : Nat) (session_duration_minutes : Int)
    (save_to_db : Bool) (study_category : Category) (next_id : Nat) (db : DB) :
    DB × Except Unit (List Event) :=
  let study_sessions :=
    build_study_sessions exam num_sessions session_duration_minutes study_category next_id
  if save_to_db then
    atomicBlock (fun db0 =>
      match saveAll oracle study_sessions db0 with
      | (db1, Except.ok _) =>
          match study_sessions with
          | [] => (db1, Except.error ())  -- `min()` of an empty sequence raises
          | s0 :: rest =>
              let earliest := rest.foldl (fun acc s => min acc s.start_time) s0.start_time
              let latest := rest.foldl (fun acc s => max acc s.end_time) s0.end_time
              let all_events := queryWindow earliest latest db1
              let optimized := resolve_conflicts all_events
              match saveAll oracle optimized db1 with
              | (db2, Except.ok _) =>
                  if logFail then (db2, Except.error ())
                  else (addLog ⟨"CREATE", study_sessions.map Event.id⟩ db2,
                    Except.ok study_sessions)
              | (db2, Except.error er) => (db2, Except.error er)
      | (db1, Except.error er) => (db1, Except.error er)) db
  else (db, Except.ok study_sessions)

/-- `SchedulingEngine.bulk_update_events`: atomically save every event and
one `BULK_UPDATE` audit row, re-raising any failure. -/
def bulk_update_events (oracle : Event → Bool) (logFail : Bool)
    (events : List Event) (db : DB) : DB × Except Unit (List Event) :=
  if events.isEmpty then (db, Except.ok [])
  else
    atomicBlock (fun db0 =>
      match saveAll oracle events db0 with
      | (db1, Except.ok _) =>
          if logFail then (db1, Except.error ())
          else (addLog ⟨"BULK_UPDATE", events.map Event.id⟩ db1, Except.ok events)
      | (db1, Except.error er) => (db1, Except.error er)) db

/-- `SchedulingEngine.bulk_delete_events`: atomically delete the rows with
the given ids and append one `BULK_DELETE` audit row, re-raising any
failure (`delFail` models the queryset `delete()` raising). -/
def bulk_delete_events (delFail logFail : Bool) (event_ids : List Nat) (db : DB) :
    DB × Except Unit Nat :=
  if event_ids.isEmpty then (db, Except.ok 0)
  else
    atomicBlock (fun db0 =>
      let to_delete := db0.events.filter (fun e => event_ids.contains e.id)
      if delFail then (db0, Except.error ())
      else
        let db1 := { db0 with
          events := db0.events.filter (fun e => !(event_ids.contains e.id)) }
        if logFail then (db1, Except.error ())
        else (addLog ⟨"BULK_DELETE", to_delete.map Event.id⟩ db1,
          Except.ok to_delete.length)) db

theorem atomicBlock_rollback {α : Type} (body : DB → DB × Except Unit α) (db : DB)
    (h : (atomicBlock body db).2 = Except.error ()) :
    (atomicBlock body db).1 = db := by
  rcases hb : body db with ⟨db', r⟩
  cases r with
  | ok a => simp [atomicBlock, hb] at h
  | error e => simp [atomicBlock, hb]

/-- Saves never touch the audit table. -/
theorem saveAll_logs (oracle : Event → Bool) : ∀ (l : List Event) (db : DB),
    ((saveAll oracle l db).1).logs = db.logs
  | [], db => rfl
  | e :: rest, db => by
      unfold saveAll saveEvent
      by_cases ho : oracle e = true
      · simp [ho]
      · simp only [ho, Bool.false_eq_true, if_neg, not_false_iff]
        rw [saveAll_logs oracle rest _]

/-- A raising write makes the whole save loop raise. -/
theorem saveAll_error_of_fail (oracle : Event → Bool) : ∀ (l : List Event) (db : DB),
    (∃ e ∈ l, oracle e = true) → (saveAll oracle l db).2 = Except.error ()
  | [], db, h => absurd h (by simp)
  | e :: rest, db, h => by
      unfold saveAll saveEvent
      by_cases ho : oracle e = true
      · simp [ho]
      · simp only [ho, Bool.false_eq_true, if_neg, not_false_iff]
        refine saveAll_error_of_fail oracle rest _ ?_
        obtain ⟨f, hf, hfo⟩ := h
        rcases List.mem_cons.mp hf with rfl | hf'
        · exact absurd hfo ho
        · exact ⟨f, hf', hfo⟩

/-- C9 for `optimize_schedule`, rollback part. -/
theorem optimize_schedule_rollback (oracle : Event → Bool) (logFail : Bool)
    (sd ed : Int) (db : DB)
    (h : (optimize_schedule oracle logFail sd ed true db).2 = Except.error ()) :
    (optimize_schedule oracle logFail sd ed true db).1 = db := by
  unfold optimize_schedule at h ⊢
  by_cases hemp : (queryWindow sd ed db).isEmpty = true
  · simp [hemp] at h
  · simp only [hemp, Bool.false_eq_true, if_neg, not_false_iff, if_pos] at h ⊢
    exact atomicBlock_rollback _ _ h

/-- C9 for `optimize_schedule`, single-audit part. -/
theorem optimize_schedule_audit (oracle : Event → Bool) (logFail : Bool)
    (sd ed : Int) (db : DB) (v : List Event)
    (h : (optimize_schedule oracle logFail sd ed true db).2 = Except.ok v)
    (hne : queryWindow sd ed db ≠ []) :
    ∃ r, (optimize_schedule oracle logFail sd ed true db).1.logs = db.logs ++ [r] := by
  have hemp : (queryWindow sd ed db).isEmpty = false := by
    simpa [List.isEmpty_iff] using hne
  unfold optimize_schedule at h ⊢
  simp only [hemp, Bool.false_eq_true, if_neg, not_false_iff, if_pos] at h ⊢
  rcases hsave : saveAll oracle (resolve_conflicts (queryWindow sd ed db)) db
    with ⟨db1, r1⟩
  simp only [atomicBlock, hsave] at h ⊢
  cases r1 with
  | error e => simp at h
  | ok u =>
      by_cases hlf : logFail = true
      · simp [hlf] at h
      · simp only [hlf, Bool.false_eq_true, if_neg, not_false_iff] at h ⊢
        have hlogs := saveAll_logs oracle (resolve_conflicts (queryWindow sd ed db)) db
        rw [hsave] at hlogs
        have hlogs' : db1.logs = db.logs := by simpa using hlogs
        exact ⟨⟨"OPTIMIZE", (resolve_conflicts (queryWindow sd ed db)).map Event.id⟩,
          by simp [addLog, hlogs']⟩

/-- C9 for `optimize_schedule`, re-raise part. -/
theorem optimize_schedule_reraise (oracle : Event → Bool) (logFail : Bool)
    (sd ed : Int) (db : DB) (hne : queryWindow sd ed db ≠ [])
    (hfail : (∃ e ∈ resolve_conflicts (queryWindow sd ed db), oracle e = true) ∨
      logFail = true) :
    (optimize_schedule oracle logFail sd ed true db).2 = Except.error () := by
  have hemp : (queryWindow sd ed db).isEmpty = false := by
    simpa [List.isEmpty_iff] using hne
  unfold optimize_schedule
  simp only [hemp, Bool.false_eq_true, if_neg, not_false_iff, if_pos]
  rcases hsave : saveAll oracle (resolve_conflicts (queryWindow sd ed db)) db
    with ⟨db1, r1⟩
  simp only [atomicBlock, hsave]
  cases r1 with
  | error e => simp
  | ok u =>
      rcases hfail with hex | hlf
      · have := saveAll_error_of_fail oracle _ db hex
        rw [hsave] at this
        simp at this
      · simp [hlf]

/-- C9 for `bulk_update_events`, rollback part. -/
theorem bulk_update_events_rollback (oracle : Event → Bool) (logFail : Bool)
    (evs : List Event) (db : DB)
    (h : (bulk_update_events oracle logFail evs db).2 = Except.error ()) :
    (bulk_update_events oracle logFail evs db).1 = db := by
  unfold bulk_update_events at h ⊢
  by_cases hemp : evs.isEmpty = true
  · simp [hemp] at h
  · simp only [hemp, Bool.false_eq_true, if_neg, not_false_iff] at h ⊢
    exact atomicBlock_rollback _ _ h

/-- C9 for `bulk_update_events`, single-audit part. -/
theorem bulk_update_events_audit (oracle : Event → Bool) (logFail : Bool)
    (evs : List Event) (db : DB) (v : List Event)
    (h : (bulk_update_events oracle logFail evs db).2 = Except.ok v) (hne : evs ≠ []) :
    ∃ r, (bulk_update_events oracle logFail evs db).1.logs = db.logs ++ [r] := by
  have hemp : evs.isEmpty = false := by simpa [List.isEmpty_iff] using hne
  unfold bulk_update_events at h ⊢
  simp only [hemp, Bool.false_eq_true, if_neg, not_false_iff] at h ⊢
  rcases hsave : saveAll oracle evs db with ⟨db1, r1⟩
  simp only [atomicBlock, hsave] at h ⊢
  cases r1 with
  | error e => simp at h
  | ok u =>
      by_cases hlf : logFail = true
      · simp [hlf] at h
      · simp only [hlf, Bool.false_eq_true, if_neg, not_false_iff] at h ⊢
        have hlogs := saveAll_logs oracle evs db
        rw [hsave] at hlogs
        have hlogs' : db1.logs = db.logs := by simpa using hlogs
        exact ⟨⟨"BULK_UPDATE", evs.map Event.id⟩, by simp [addLog, hlogs']⟩

/-- C9 for `bulk_update_events`, re-raise part. -/
theorem bulk_update_events_reraise (oracle : Event → Bool) (logFail : Bool)
    (evs : List Event) (db : DB) (hne : evs ≠ [])
    (hfail : (∃ e ∈ evs, oracle e = true) ∨ logFail = true) :
    (bulk_update_events oracle logFail evs db).2 = Except.error () := by
  have hemp : evs.isEmpty = false := by simpa [List.isEmpty_iff] using hne
  unfold bulk_update_events
  simp only [hemp, Bool.false_eq_true, if_neg, not_false_iff]
  rcases hsave : saveAll oracle evs db with ⟨db1, r1⟩
  simp only [atomicBlock, hsave]
  cases r1 with
  | error e => simp
  | ok u =>
      rcases hfail with hex | hlf
      · have := saveAll_error_of_fail oracle _ db hex
        rw [hsave] at this
        simp at this
      · simp [hlf]

/-- C9 for `bulk_delete_events`, rollback part. -/
theorem bulk_delete_events_rollback (delFail logFail : Bool)
    (ids : List Nat) (db : DB)
    (h : (bulk_delete_events delFail logFail ids db).2 = Except.error ()) :
    (bulk_delete_events delFail logFail ids db).1 = db := by
  unfold bulk_delete_events at h ⊢
  by_cases hemp : ids.isEmpty = true
  · simp [hemp] at h
  · simp only [hemp, Bool.false_eq_true, if_neg, not_false_iff] at h ⊢
    exact atomicBlock_rollback _ _ h

/-- C9 for `bulk_delete_events`, single-audit part. -/
theorem bulk_delete_events_audit (delFail logFail : Bool)
    (ids : List Nat) (db : DB) (v : Nat)
    (h : (bulk_delete_events delFail logFail ids db).2 = Except.ok v) (hne : ids ≠ []) :
    ∃ r, (bulk_delete_events delFail logFail ids db).1.logs = db.logs ++ [r] := by
  have hemp : ids.isEmpty = false := by simpa [List.isEmpty_iff] using hne
  unfold bulk_delete_events at h ⊢
  simp only [hemp, Bool.false_eq_true, if_neg, not_false_iff] at h ⊢
  by_cases hdf : delFail = true
  · simp [atomicBlock, hdf] at h
  · by_cases hlf : logFail = true
    · simp [atomicBlock, hdf, hlf] at h
    · simp only [atomicBlock, hdf, hlf, Bool.false_eq_true, if_neg, not_false_iff] at h ⊢
      exact ⟨⟨"BULK_DELETE",
        (db.events.filter (fun e => ids.contains e.id)).map Event.id⟩,
        by simp [addLog]⟩

/-- C9 for `bulk_delete_events`, re-raise part. -/
theorem bulk_delete_events_reraise (delFail logFail : Bool)
    (ids : List Nat) (db : DB) (hne : ids ≠ [])
    (hfail : delFail = true ∨ logFail = true) :
    (bulk_delete_events delFail logFail ids db).2 = Except.error () := by
  have hemp : ids.isEmpty = false := by simpa [List.isEmpty_iff] using hne
  unfold bulk_delete_events
  simp only [hemp, Bool.false_eq_true, if_neg, not_false_iff]
  rcases hfail with hdf | hlf
  · simp [atomicBlock, hdf]
  · by_cases hdf : delFail = true
    · simp [atomicBlock, hdf]
    · simp [atomicBlock, hdf, hlf]

/-- C9 for `create_exam_study_sessions`, rollback part. -/
theorem create_exam_study_sessions_rollback (oracle : Event → Bool) (logFail : Bool)
    (exam : Event) (n : Nat) (sdm : Int) (cat : Category) (nid : Nat) (db : DB)
    (h : (create_exam_study_sessions oracle logFail exam n sdm true cat nid db).2 =
      Except.error ()) :
    (create_exam_study_sessions oracle logFail exam n sdm true cat nid db).1 = db := by
  unfold create_exam_study_sessions at h ⊢
  simp only [if_pos] at h ⊢
  exact atomicBlock_rollback _ _ h

/-- C9 for `create_exam_study_sessions`, single-audit part. -/
theorem create_exam_study_sessions_audit (oracle : Event → Bool) (logFail : Bool)
    (exam : Event) (n : Nat) (sdm : Int) (cat : Category) (nid : Nat) (db : DB)
    (v : List Event)
    (h : (create_exam_study_sessions oracle logFail exam n sdm true cat nid db).2 =
      Except.ok v) :
    ∃ r, (create_exam_study_sessions oracle logFail exam n sdm true cat nid db).1.logs =
      db.logs ++ [r] := by
  unfold create_exam_study_sessions at h ⊢
  simp only [if_pos] at h ⊢
  rcases hsave : saveAll oracle (build_study_sessions exam n sdm cat nid) db
    with ⟨db1, r1⟩
  simp only [atomicBlock, hsave] at h ⊢
  cases r1 with
  | error e => simp at h
  | ok u =>
      rcases hss : build_study_sessions exam n sdm cat nid with _ | ⟨s0, rest⟩
      · simp [hss] at h
      · simp only [hss] at h ⊢
        rcases hsave2 : saveAll oracle
            (resolve_conflicts (queryWindow
              (rest.foldl (fun acc s => min acc s.start_time) s0.start_time)
              (rest.foldl (fun acc s => max acc s.end_time) s0.end_time) db1)) db1
          with ⟨db2, r2⟩
        simp only [hsave2] at h ⊢
        cases r2 with
        | error e => simp at h
        | ok u2 =>
            by_cases hlf : logFail = true
            · simp [hlf] at h
            · simp only [hlf, Bool.false_eq_true, if_neg, not_false_iff] at h ⊢
              have hlogs1 := saveAll_logs oracle (build_study_sessions exam n sdm cat nid) db
              rw [hsave] at hlogs1
              have hlogs2 := saveAll_logs oracle
                (resolve_conflicts (queryWindow
                  (rest.foldl (fun acc s => min acc s.start_time) s0.start_time)
                  (rest.foldl (fun acc s => max acc s.end_time) s0.end_time) db1)) db1
              rw [hsave2] at hlogs2
              have hlogs1' : db1.logs = db.logs := by simpa using hlogs1
              have hlogs2' : db2.logs = db1.logs := by simpa using hlogs2
              exact ⟨⟨"CREATE", (s0 :: rest).map Event.id⟩,
                by simp [addLog, hlogs2', hlogs1']⟩

/-- C9 for `create_exam_study_sessions`, re-raise part. -/
theorem create_exam_study_sessions_reraise (oracle : Event → Bool) (logFail : Bool)
    (exam : Event) (n : Nat) (sdm : Int) (cat : Category) (nid : Nat) (db : DB)
    (hfail : ∃ s ∈ build_study_sessions exam n sdm cat nid, oracle s = true) :
    (create_exam_study_sessions oracle logFail exam n sdm true cat nid db).2 =
      Except.error () := by
  unfold create_exam_study_sessions
  simp only [if_pos]
  rcases hsave : saveAll oracle (build_study_sessions exam n sdm cat nid) db
    with ⟨db1, r1⟩
  simp only [atomicBlock, hsave]
  cases r1 with
  | error e => simp
  | ok u =>
      have := saveAll_error_of_fail oracle _ db hfail
      rw [hsave] at this
      simp at this

/-- C9: each multi-record entry point (`optimize_schedule`,
`create_exam_study_sessions`, `bulk_update_events`, `bulk_delete_events`) is
all-or-nothing: on any raising write the persisted state (events and audit
rows) is exactly the entry state and the error is propagated; on success
exactly one audit row is appended in the same unit. -/
theorem atomic_persistence_all_or_nothing
    (oracle : Event → Bool) (logFail delFail : Bool) (db : DB)
    (sd ed : Int) (evs : List Event) (ids : List Nat)
    (exam : Event) (n : Nat) (sdm : Int) (cat : Category) (nid : Nat) :
    (((optimize_schedule oracle logFail sd ed true db).2 = Except.error () →
        (optimize_schedule oracle logFail sd ed true db).1 = db) ∧
      (∀ v, (optimize_schedule oracle logFail sd ed true db).2 = Except.ok v →
        queryWindow sd ed db ≠ [] →
        ∃ r, (optimize_schedule oracle logFail sd ed true db).1.logs = db.logs ++ [r]) ∧
      (queryWindow sd ed db ≠ [] →
        ((∃ e ∈ resolve_conflicts (queryWindow sd ed db), oracle e = true) ∨
          logFail = true) →
        (optimize_schedule oracle logFail sd ed true db).2 = Except.error ())) ∧
    (((create_exam_study_sessions oracle logFail exam n sdm true cat nid db).2 =
          Except.error () →
        (create_exam_study_sessions oracle logFail exam n sdm true cat nid db).1 = db) ∧
      (∀ v, (create_exam_study_sessions oracle logFail exam n sdm true cat nid db).2 =
          Except.ok v →
        ∃ r, (create_exam_study_sessions oracle logFail exam n sdm true cat
          nid db).1.logs = db.logs ++ [r]) ∧
      ((∃ s ∈ build_study_sessions exam n sdm cat nid, oracle s = true) →
        (create_exam_study_sessions oracle logFail exam n sdm true cat nid db).2 =
          Except.error ())) ∧
    (((bulk_update_events oracle logFail evs db).2 = Except.error () →
        (bulk_update_events oracle logFail evs db).1 = db) ∧
      (∀ v, (bulk_update_events oracle logFail evs db).2 = Except.ok v → evs ≠ [] →
        ∃ r, (bulk_update_events oracle logFail evs db).1.logs = db.logs ++ [r]) ∧
      (evs ≠ [] → ((∃ e ∈ evs, oracle e = true) ∨ logFail = true) →
        (bulk_update_events oracle logFail evs db).2 = Except.error ())) ∧
    (((bulk_delete_events delFail logFail ids db).2 = Except.error () →
        (bulk_delete_events delFail logFail ids db).1 = db) ∧
      (∀ v, (bulk_delete_events delFail logFail ids db).2 = Except.ok v → ids ≠ [] →
        ∃ r, (bulk_delete_events delFail logFail ids db).1.logs = db.logs ++ [r]) ∧
      (ids ≠ [] → (delFail = true ∨ logFail = true) →
        (bulk_delete_events delFail logFail ids db).2 = Except.error ())) :=
  ⟨⟨optimize_schedule_rollback oracle logFail sd ed db,
    fun v hv => optimize_schedule_audit oracle logFail sd ed db v hv,
    optimize_schedule_reraise oracle logFail sd ed db⟩,
   ⟨create_exam_study_sessions_rollback oracle logFail exam n sdm cat nid db,
    fun v hv => create_exam_study_sessions_audit oracle logFail exam n sdm cat nid db v hv,
    create_exam_study_sessions_reraise oracle logFail exam n sdm cat nid db⟩,
   ⟨bulk_update_events_rollback oracle logFail evs db,
    fun v hv => bulk_update_events_audit oracle logFail evs db v hv,
    bulk_update_events_reraise oracle logFail evs db⟩,
   ⟨bulk_delete_events_rollback delFail logFail ids db,
    fun v hv => bulk_delete_events_audit delFail logFail ids db v hv,
    bulk_delete_events_reraise delFail logFail ids db⟩⟩

theorem atomic_persistence_all_or_nothing_witness :
    (bulk_update_events (fun _ => true) false
        [Event.mk 1 "a" ⟨"Exam", 5⟩ 0 60 true] (DB.mk [] [])).2 = Except.error () ∧
    (bulk_update_events (fun _ => true) false
        [Event.mk 1 "a" ⟨"Exam", 5⟩ 0 60 true] (DB.mk [] [])).1 = DB.mk [] [] :=
  have h := atomic_persistence_all_or_nothing (fun _ => true) false false (DB.mk [] [])
    0 0 [Event.mk 1 "a" ⟨"Exam", 5⟩ 0 60 true] [] (Event.mk 1 "a" ⟨"Exam", 5⟩ 0 60 true)
    0 0 ⟨"Study", 4⟩ 0
  have herr := h.2.2.1.2.2 (by decide)
    (Or.inl ⟨Event.mk 1 "a" ⟨"Exam", 5⟩ 0 60 true, by decide, rfl⟩)
  ⟨herr, h.2.2.1.1 herr⟩

end Phantom
